import Mathlib

/-!
Verification development for the dns-magnitude-hll dataset/aggregation core.

The Go sources are shallowly embedded: machine integers (`uint64`, `uint16`)
become `Nat` with explicit `% 2^64` / `% 2^16` where the code can overflow,
Go maps become association lists with unique keys, fallible Go functions
return `Except String`, and `float64` magnitude arithmetic is idealised over
`ℝ` (`math.Log` becomes `Real.log`).
-/

namespace DnsMag


/-! ### Small numeric utilities -/

/-- Number of trailing zero bits of a 64-bit value
(`bits.TrailingZeros64`; the fuel covers every value below `2^64`, and the
callers mask their argument so that a set bit always exists). -/
def tzFuel : Nat → Nat → Nat
  | 0, _ => 0
  | fuel + 1, n => if n % 2 = 1 then 0 else tzFuel fuel (n / 2) + 1

def tz (n : Nat) : Nat := if n = 0 then 0 else tzFuel 64 n

/-- Decimal rendering of a natural number, as Go `fmt` `%d` prints it. -/
def toDec (n : Nat) : String := String.mk (Nat.toDigits 10 n)

/-- Lowercase hexadecimal rendering of a natural number (no leading zeros),
as Go formats IPv6 groups. -/
def toHex (n : Nat) : String := String.mk (Nat.toDigits 16 n)

/-- Split a character list on a separator character, keeping empty pieces
(the semantics of `strings.Split` / `String.splitOn` for a one-character
separator). -/
def splitOnChar (c : Char) : List Char → List (List Char)
  | [] => [[]]
  | x :: rest =>
    match splitOnChar c rest with
    | [] => [[x]]
    | g :: gs => if x = c then [] :: g :: gs else (x :: g) :: gs

/-- Join character-list pieces with a separator character
(`strings.Join`). -/
def joinSep (c : Char) : List (List Char) → List Char
  | [] => []
  | [g] => g
  | g :: gs => g ++ c :: joinSep c gs

/-! ### HyperLogLog model

The repository uses `github.com/segmentio/go-hll` with the production
configuration `log2m = 14`, `regwidth = 5`, sparse storage enabled and
the explicit (exact) sub-mode disabled (`InitStats` in
`src/internal/dataset.go`).  An HLL's observable state is its register
assignment: `AddRaw` max-updates one register, union is the pointwise
register maximum, and the canonical byte encoding lists the occupied
registers in ascending index order.  We represent the registers as an
ascending association list `index ↦ value` of the occupied (nonzero)
registers, which is exactly the information content of the sparse storage
format. -/

structure HllSettings where
  log2m : Nat
  regwidth : Nat
deriving DecidableEq, Repr

/-- The production settings installed once by `InitStats`. -/
def defaultSettings : HllSettings := ⟨14, 5⟩

structure Hll where
  settings : HllSettings
  regs : List (Nat × Nat)
deriving DecidableEq, Repr

/-- A fresh `hll.Hll{}` zero value, which adopts the process-wide defaults. -/
def emptyHll : Hll := ⟨defaultSettings, []⟩

/-- Insert a register observation, keeping the list ascending by index and
taking the maximum on an index collision (register semantics of `AddRaw`). -/
def regInsert (idx v : Nat) : List (Nat × Nat) → List (Nat × Nat)
  | [] => [(idx, v)]
  | (i, w) :: rest =>
    if idx < i then (idx, v) :: (i, w) :: rest
    else if idx = i then (i, max w v) :: rest
    else (i, w) :: regInsert idx v rest

/-- Pointwise register maximum: fold the right list into the left. -/
def regMerge (l : List (Nat × Nat)) : List (Nat × Nat) → List (Nat × Nat)
  | [] => l
  | (i, w) :: rest => regMerge (regInsert i w l) rest

/-- `pwMaxMask` of the Go library: caps the register value at
`2^regwidth - 1` by forcing a one-bit below that position. -/
def pwMaxMask (regwidth : Nat) : Nat :=
  (2 ^ 64 - 1) - (2 ^ ((2 ^ regwidth - 1) - 1) - 1)

/-- `Hll.AddRaw`: the low `log2m` bits select a register, the remaining bits
form the substream whose trailing-zero count (plus one, capped) is the
observed register value. -/
def Hll.addRaw (h : Hll) (hash : Nat) : Hll :=
  let idx := hash % 2 ^ h.settings.log2m
  let sub := hash / 2 ^ h.settings.log2m
  let pos := 1 + tz (Nat.lor sub (pwMaxMask h.settings.regwidth))
  { h with regs := regInsert idx pos h.regs }

/-- `Hll.StrictUnion`: fails if the two estimators' configurations are
incompatible (never silently degrades precision), otherwise takes the
pointwise register maximum. -/
def Hll.strictUnion (h other : Hll) : Except String Hll :=
  if h.settings = other.settings then
    .ok { h with regs := regMerge h.regs other.regs }
  else
    .error "incompatible hll settings"

/-- Modelled from the spec: `Hll.Cardinality` of the go-hll library (whose
source is not part of this repository) computes a floating-point
`HyperLogLog` estimate of the number of distinct values added.  The
estimate is a deterministic function of the register state, monotone in
the registers; the development depends on it only through those two
properties, which this integer surrogate (the number of occupied
registers) shares. -/
def Hll.cardinality (h : Hll) : Nat := h.regs.length

/-! #### Register-list invariants and algebra -/

/-- Keys strictly ascending (each key below all later keys). -/
def regSorted (l : List (Nat × Nat)) : Prop :=
  l.Pairwise (fun p q => p.1 < q.1)

/-- Lookup a register value, 0 when unoccupied. -/
def regLookup (l : List (Nat × Nat)) (j : Nat) : Nat :=
  match l with
  | [] => 0
  | (i, w) :: rest => if j = i then w else regLookup rest j

/-! ### IP addresses (`src/unnamed/part_025`, Go `net/netip` semantics)

A `netip.Addr` is either a 4-byte IPv4 value or a 16-byte IPv6 value; we
carry the byte lists explicitly. -/

inductive NetAddr where
  | v4 (bytes : List Nat)
  | v6 (bytes : List Nat)
deriving DecidableEq, Repr

/-- Keep only the top `k` of the 8 bits of a byte. -/
def keepBits (k b : Nat) : Nat :=
  if 8 ≤ k then b else b / 2 ^ (8 - k) * 2 ^ (8 - k)

/-- Zero all bits of the address beyond the first `mask` bits
(`netip.Prefix(mask).Addr()`). -/
def truncBytes (mask : Nat) (bs : List Nat) : List Nat :=
  bs.enum.map (fun p => keepBits (mask - 8 * p.1) p.2)

/-- `netip.Addr.Prefix`: fails when the requested mask is out of range for
the address family, otherwise zeroes the host bits. -/
def NetAddr.prefixTrunc (a : NetAddr) (mask : Int) : Except String NetAddr :=
  match a with
  | .v4 bs =>
    if 0 ≤ mask ∧ mask ≤ 32 then .ok (.v4 (truncBytes mask.toNat bs))
    else .error "prefix length out of range"
  | .v6 bs =>
    if 0 ≤ mask ∧ mask ≤ 128 then .ok (.v6 (truncBytes mask.toNat bs))
    else .error "prefix length out of range"

/-- `netip.Addr.As16`: an IPv4 address maps to its IPv4-mapped-IPv6 form. -/
def NetAddr.as16 : NetAddr → List Nat
  | .v4 bs => [0, 0, 0, 0, 0, 0, 0, 0, 0, 0, 0xff, 0xff] ++ bs
  | .v6 bs => bs

/-- `netip.Addr.Is6`: true for the 16-byte form only (a parsed dotted-quad
is the 4-byte form). -/
def NetAddr.is6 : NetAddr → Bool
  | .v4 _ => false
  | .v6 _ => true

/-! #### XXH3 (64-bit, seed 0) of a 16-byte input

`github.com/zeebo/xxh3`'s `Hash` on the 16-byte hash-input buffer — the
only length this repository ever hashes — is the 9-to-16-byte path of the
XXH3-64 algorithm with the default secret.  The two secret-word xors and
the algorithm are validated against the repository's interop test vectors
(`TestInteropVectors`) in the theorems for claim C9 below. -/

/-- Little-endian read of a byte list. -/
def readLE64 (bs : List Nat) : Nat :=
  bs.foldr (fun b acc => acc * 256 + b) 0

/-- The `w` low bytes of `x`, little-endian. -/
def bytesLE : Nat → Nat → List Nat
  | 0, _ => []
  | w + 1, x => x % 256 :: bytesLE w (x / 256)

/-- 64-bit byte swap. -/
def swap64 (x : Nat) : Nat :=
  readLE64 (bytesLE 8 x).reverse

/-- XXH3 avalanche finalisation. -/
def xxh3Avalanche (x : Nat) : Nat :=
  let x1 := Nat.xor x (x / 2 ^ 37)
  let x2 := x1 * 0x165667919E3779F9 % 2 ^ 64
  Nat.xor x2 (x2 / 2 ^ 32)

/-- Full 128-bit product folded to 64 bits by xor of halves. -/
def mul128Fold64 (a b : Nat) : Nat :=
  Nat.xor (a * b % 2 ^ 64) (a * b / 2 ^ 64 % 2 ^ 64)

/-- XXH3-64 of a 16-byte input, seed 0, default secret. -/
def xxh3Len16 (data : List Nat) : Nat :=
  let bitflip1 := Nat.xor 0x1f67b3b7a4a44072 0x78e5c0cc4ee679cb
  let bitflip2 := Nat.xor 0x2172ffcc7dd05a82 0x8e2443f7744608b8
  let inputLo := Nat.xor (readLE64 (data.take 8)) bitflip1
  let inputHi := Nat.xor (readLE64 (data.drop 8)) bitflip2
  let acc := (16 + swap64 inputLo + inputHi + mul128Fold64 inputLo inputHi) % 2 ^ 64
  xxh3Avalanche acc

/-- `IPAddress` of `src/unnamed/part_025`: the raw address, its truncated
form, the 16-byte hash-input buffer and the 64-bit hash. -/
structure IPAddress where
  ipAddress : NetAddr
  truncatedIP : NetAddr
  hashInput : List Nat
  hash : Nat
deriving DecidableEq, Repr

/-- Modelled from the spec: the constant `DefaultIPv4MaskLength` is used by
`src/unnamed/part_025` but its defining file is not under `src/`; the spec
fixes IPv4 truncation to /24. -/
def DefaultIPv4MaskLength : Int := 24

/-- Modelled from the spec: the constant `DefaultIPv6MaskLength` is used by
`src/unnamed/part_025` but its defining file is not under `src/`; the spec
fixes IPv6 truncation to /48. -/
def DefaultIPv6MaskLength : Int := 48

/-- `newIPAddress` of `src/unnamed/part_025` (the `NetAddr` inductive has
exactly the IPv4/IPv6 cases, so the defensive "not IPv4 or IPv6" branch of
the Go code has no counterpart). -/
def newIPAddress (addr : NetAddr) (v4mask v6mask : Int) : Except String IPAddress :=
  match h : (match addr with
             | .v4 _ => addr.prefixTrunc v4mask
             | .v6 _ => addr.prefixTrunc v6mask) with
  | .error e =>
    .error ((match addr with
             | .v4 _ => "invalid IPv4 address: "
             | .v6 _ => "invalid IPv6 address: ") ++ e)
  | .ok truncated =>
    .ok { ipAddress := addr
          truncatedIP := truncated
          hashInput := truncated.as16
          hash := xxh3Len16 truncated.as16 }

/-- `NewIPAddress`: truncation with the default mask lengths. -/
def NewIPAddress (addr : NetAddr) : Except String IPAddress :=
  newIPAddress addr DefaultIPv4MaskLength DefaultIPv6MaskLength

/-! #### Textual addresses (`net/netip` parse and format, restricted to the
plain dotted-quad and colon-hex forms — no zones, no embedded-IPv4 tail) -/

def parseDecByte (cs : List Char) : Option Nat :=
  if cs ≠ [] ∧ cs.length ≤ 3 ∧ cs.all Char.isDigit ∧ (cs.length = 1 ∨ cs.head? ≠ some '0') then
    let v := cs.foldl (fun acc c => acc * 10 + (c.toNat - 48)) 0
    if v ≤ 255 then some v else none
  else none

def isHexChar (c : Char) : Bool :=
  decide ('0' ≤ c ∧ c ≤ '9') || decide ('a' ≤ c ∧ c ≤ 'f') || decide ('A' ≤ c ∧ c ≤ 'F')

def hexVal (c : Char) : Nat :=
  if 'a' ≤ c then c.toNat - 87 else if 'A' ≤ c then c.toNat - 55 else c.toNat - 48

def parseHexGroup (cs : List Char) : Option Nat :=
  if cs ≠ [] ∧ cs.length ≤ 4 ∧ cs.all isHexChar then
    some (cs.foldl (fun acc c => acc * 16 + hexVal c) 0)
  else none

def parseIPv4 (s : String) : Option NetAddr :=
  match (splitOnChar '.' s.data).mapM parseDecByte with
  | some [a, b, c, d] => some (.v4 [a, b, c, d])
  | _ => none

/-- Hex groups of one side of a `::`, the empty side giving no groups. -/
def splitGroups (cs : List Char) : Option (List Nat) :=
  if cs = [] then some [] else (splitOnChar ':' cs).mapM parseHexGroup

def groupBytes (gs : List Nat) : List Nat :=
  gs.foldr (fun g acc => g / 256 :: g % 256 :: acc) []

/-- Split at the first `::`, if any. -/
def splitDoubleColon : List Char → Option (List Char × List Char)
  | ':' :: ':' :: rest => some ([], rest)
  | x :: rest => (splitDoubleColon rest).map (fun p => (x :: p.1, p.2))
  | [] => none

def parseIPv6 (s : String) : Option NetAddr :=
  match splitDoubleColon s.data with
  | none => do
    let gs ← (splitOnChar ':' s.data).mapM parseHexGroup
    if gs.length = 8 then some (.v6 (groupBytes gs)) else none
  | some (l, r) =>
    if (splitDoubleColon r).isSome then none
    else do
      let gl ← splitGroups l
      let gr ← splitGroups r
      if gl.length + gr.length ≤ 7 then
        some (.v6 (groupBytes (gl ++ List.replicate (8 - (gl.length + gr.length)) 0 ++ gr)))
      else none

/-- `netip.ParseAddr`: the first separator character decides the family. -/
def parseAddr (s : String) : Except String NetAddr :=
  match (if s.data.contains ':' then parseIPv6 s
         else if s.data.contains '.' then parseIPv4 s else none) with
  | some a => .ok a
  | none => .error "unable to parse IP"

/-- `NewIPAddressFromString` of `src/unnamed/part_025`. -/
def NewIPAddressFromString (s : String) : Except String IPAddress :=
  match parseAddr s with
  | .error e => .error ("invalid IP address string '" ++ s ++ "': " ++ e)
  | .ok addr => NewIPAddress addr

def ipv4String (bs : List Nat) : String :=
  String.mk (joinSep '.' (bs.map (fun b => Nat.toDigits 10 b)))

/-- 16-bit groups of a 16-byte address. -/
def groupsOf : List Nat → List Nat
  | a :: b :: rest => (a * 256 + b) :: groupsOf rest
  | _ => []

/-- Length of the zero-group prefix. -/
def zeroRunAt : List Nat → Nat
  | 0 :: rest => 1 + zeroRunAt rest
  | _ => 0

/-- Leftmost longest run of at least two zero groups (RFC 5952 `::`
placement, as `netip.Addr.String` chooses it). -/
def bestZeroRun : List Nat → Nat → Option (Nat × Nat)
  | [], _ => none
  | g :: rest, pos =>
    let here := zeroRunAt (g :: rest)
    let later := bestZeroRun rest (pos + 1)
    if 2 ≤ here then
      match later with
      | some (s, l) => if here < l then some (s, l) else some (pos, here)
      | none => some (pos, here)
    else later

def ipv6String (bs : List Nat) : String :=
  let gs := groupsOf bs
  let hexed := fun (l : List Nat) => joinSep ':' (l.map (fun g => Nat.toDigits 16 g))
  match bestZeroRun gs 0 with
  | none => String.mk (hexed gs)
  | some (s, l) => String.mk (hexed (gs.take s) ++ ':' :: ':' :: hexed (gs.drop (s + l)))

/-- `netip.Addr.String`. -/
def NetAddr.string : NetAddr → String
  | .v4 bs => ipv4String bs
  | .v6 bs => ipv6String bs

/-! ### Domain names (`src/unnamed/part_020`) -/

/-- Number of labels kept (`DefaultDNSDomainNameLabels`): just the TLD. -/
def DefaultDNSDomainNameLabels : Nat := 1

def isLowerAlpha (c : Char) : Bool := decide ('a' ≤ c ∧ c ≤ 'z')

def isTLDRestChar (c : Char) : Bool :=
  isLowerAlpha c || decide ('0' ≤ c ∧ c ≤ '9') || decide (c = '-')

/-- The validation regex `^(?:[a-z]{2,63}|xn--[a-z0-9-]{1,59})$` as a
decidable predicate. -/
def domainNameRegexMatch (s : List Char) : Bool :=
  (decide (2 ≤ s.length) && decide (s.length ≤ 63) && s.all isLowerAlpha)
  || (decide (s.take 4 = ['x', 'n', '-', '-']) && decide (1 ≤ (s.drop 4).length)
        && decide ((s.drop 4).length ≤ 59) && (s.drop 4).all isTLDRestChar)

/-- `getDomainName`: lowercase, strip one trailing dot, keep the last
`numLabels` labels, validate the TLD.  The empty name and `"."` are the
root-domain sentinel.  (Go's `strings.ToLower` is Unicode-aware;
`Char.toLower` covers ASCII, the only characters the grammar accepts.) -/
def getDomainName (name : String) (numLabels : Nat) : Except String String :=
  if name.data.length = 0 ∨ name = "." then .ok "."
  else
    let nm := name.data.map Char.toLower
    let nm := if nm.getLast? = some '.' then nm.dropLast else nm
    let split := splitOnChar '.' nm
    if split.length < numLabels then
      .error ("domain name has " ++ toDec split.length ++ " parts but " ++
        toDec numLabels ++ " required")
    else
      let tld := (split.getLastD [])
      if domainNameRegexMatch tld then
        .ok (String.mk (joinSep '.' (split.drop (split.length - numLabels))))
      else
        .error ("invalid domain name: " ++ String.mk tld ++
          " does not match required pattern")

/-! ### Dates (`time.Time` restricted to what the repository observes:
a day-granular UTC date plus an opaque sub-day remainder that `SetDate`
zeroes and `DateString` ignores) -/

structure Date where
  year : Nat
  month : Nat
  day : Nat
  /-- Sub-day component (time of day); present so that day-truncation is
  observable, never printed. -/
  sub : Nat
deriving DecidableEq, Repr

/-- `time.Date(y, m, d, 0, 0, 0, 0, time.UTC)` applied to a date's fields. -/
def dateOnly (d : Date) : Date := ⟨d.year, d.month, d.day, 0⟩

def pad2 (n : Nat) : String := if n < 10 then "0" ++ toDec n else toDec n

def pad4 (n : Nat) : String :=
  if n < 10 then "000" ++ toDec n
  else if n < 100 then "00" ++ toDec n
  else if n < 1000 then "0" ++ toDec n
  else toDec n

/-- `Format(time.DateOnly)`. -/
def Date.string (d : Date) : String :=
  pad4 d.year ++ "-" ++ pad2 d.month ++ "-" ++ pad2 d.day

def isLeapYear (y : Nat) : Bool :=
  (decide (y % 4 = 0) && decide (y % 100 ≠ 0)) || decide (y % 400 = 0)

def daysInMonth (y m : Nat) : Nat :=
  if m = 2 then (if isLeapYear y then 29 else 28)
  else if m = 4 ∨ m = 6 ∨ m = 9 ∨ m = 11 then 30
  else 31

/-- `time.Parse(time.DateOnly, s)`: fixed `YYYY-MM-DD` shape with range
validation. -/
def parseDateOnly (s : String) : Option Date :=
  match s.data with
  | [y1, y2, y3, y4, c1, m1, m2, c2, d1, d2] =>
    if [y1, y2, y3, y4, m1, m2, d1, d2].all Char.isDigit ∧ c1 = '-' ∧ c2 = '-' then
      let dv : Char → Nat := fun c => c.toNat - 48
      let y := dv y1 * 1000 + dv y2 * 100 + dv y3 * 10 + dv y4
      let m := dv m1 * 10 + dv m2
      let d := dv d1 * 10 + dv d2
      if 1 ≤ m ∧ m ≤ 12 ∧ 1 ≤ d ∧ d ≤ daysInMonth y m then some ⟨y, m, d, 0⟩ else none
    else none
  | _ => none

/-! ### Datasets (`src/internal/dataset.go`, third revision — the one the
claims reference)

Go maps become association lists with unique keys; `uint64` counters wrap
at `2^64` exactly as the Go additions do; the verbose-only exact
client/domain sets are carried as insertion-ordered duplicate-free lists. -/

def alistLookup {α : Type} (k : String) : List (String × α) → Option α
  | [] => none
  | (k', v) :: rest => if k = k' then some v else alistLookup k rest

def alistInsert {α : Type} (k : String) (v : α) : List (String × α) → List (String × α)
  | [] => [(k, v)]
  | (k', v') :: rest => if k = k' then (k, v) :: rest else (k', v') :: alistInsert k v rest

/-- Go set-map insertion (`m[x] = struct{}{}`). -/
def setInsert {α : Type} [DecidableEq α] (x : α) (l : List α) : List α :=
  if x ∈ l then l else l ++ [x]

/-- Per-domain data (`domainData`). -/
structure DomainData where
  hll : Hll
  clientsCount : Nat
  queriesCount : Nat
  extraAllClients : List NetAddr
deriving DecidableEq, Repr

structure MagnitudeDataset where
  version : Nat
  identifier : String
  generator : String
  date : Date
  allClientsHll : Hll
  allClientsCount : Nat
  allQueriesCount : Nat
  domains : List (String × DomainData)
  extraAllClients : List NetAddr
  extraV6Clients : List NetAddr
  extraAllDomains : List String
  extraSourceFilename : String
deriving DecidableEq, Repr

/-- Models `time.Now().UTC()`: the ambient wall clock, fixed for the
development (its value is irrelevant to every claim). -/
def modelNow : Date := ⟨2026, 10, 11, 0⟩

/-- `internal.Version`, injected at link time; `"undefined"` in a plain
build (`src/app/cmd/version.go`). -/
def goVersionString : String := "undefined"

/-- Models `uuid.New().String()`: an external randomness source; the
identifier is opaque and no claim observes it. -/
def modelUUID : String := "00000000-0000-0000-0000-000000000000"

/-- `SetDate`: day-truncate the given date, or today when absent. -/
def MagnitudeDataset.setDate (ds : MagnitudeDataset) (date : Option Date) : MagnitudeDataset :=
  { ds with date := dateOnly (date.getD modelNow) }

def newDomain : DomainData :=
  { hll := emptyHll, clientsCount := 0, queriesCount := 0, extraAllClients := [] }

def newDataset (date : Option Date) : MagnitudeDataset :=
  MagnitudeDataset.setDate
    { version := 1
      identifier := modelUUID
      generator := "dnsmag " ++ goVersionString
      date := modelNow
      allClientsHll := emptyHll
      allClientsCount := 0
      allQueriesCount := 0
      domains := []
      extraAllClients := []
      extraV6Clients := []
      extraAllDomains := []
      extraSourceFilename := "" } date

def MagnitudeDataset.dateString (ds : MagnitudeDataset) : String := ds.date.string

/-- `updateStats`: count a query for a domain and source address.  The Go
method mutates the dataset through a pointer and returns an `error`; the
model returns the new state together with the optional error, since the
mutations made before domain validation persist on the error path. -/
def MagnitudeDataset.updateStats (ds : MagnitudeDataset) (domainStr : String)
    (src : IPAddress) (queryCount : Nat) (verbose : Bool) :
    MagnitudeDataset × Option String :=
  if queryCount = 0 then (ds, none)
  else
    let ds := { ds with
      allQueriesCount := (ds.allQueriesCount + queryCount) % 2 ^ 64
      allClientsHll := ds.allClientsHll.addRaw src.hash }
    let ds := if verbose then
        { ds with
          extraAllClients := setInsert src.truncatedIP ds.extraAllClients
          extraV6Clients :=
            if src.ipAddress.is6 then setInsert src.truncatedIP ds.extraV6Clients
            else ds.extraV6Clients }
      else ds
    match getDomainName domainStr DefaultDNSDomainNameLabels with
    | .error e => (ds, some ("invalid domain name: " ++ e))
    | .ok domainName =>
      if domainName = "." then (ds, none)
      else
        let ds := if verbose then
            { ds with extraAllDomains := setInsert domainName ds.extraAllDomains }
          else ds
        let dom := (alistLookup domainName ds.domains).getD newDomain
        let dom := if verbose then
            { dom with extraAllClients := setInsert src.truncatedIP dom.extraAllClients }
          else dom
        let dom := { dom with
          queriesCount := (dom.queriesCount + queryCount) % 2 ^ 64
          hll := dom.hll.addRaw src.hash }
        ({ ds with domains := alistInsert domainName dom ds.domains }, none)

/-- `finaliseStats`: recompute every derived client count from its
estimator. -/
def MagnitudeDataset.finaliseStats (ds : MagnitudeDataset) : MagnitudeDataset :=
  { ds with
    domains := ds.domains.map (fun p => (p.1, { p.2 with clientsCount := p.2.hll.cardinality }))
    allClientsCount := ds.allClientsHll.cardinality }

/-! #### Magnitude ranking (`SortedByMagnitude`, `Truncate`)

The Go code computes the magnitude in `float64`; the model idealises it
over `ℝ` (`math.Log` becomes `Real.log`, `int(x)` becomes truncation
toward zero). -/

/-- Ranking entry (`DomainMagnitude`): ephemeral, recomputed on demand. -/
structure DomainMagnitude where
  domain : String
  magnitude : ℝ
  domainHll : DomainData

noncomputable def magnitudeOf (allClientsCount : Nat) (dd : DomainData) : ℝ :=
  (Real.log dd.clientsCount / Real.log allClientsCount) * 10

/-- Go `int(x)` conversion of a float: truncation toward zero. -/
noncomputable def goTrunc (x : ℝ) : ℤ := if 0 ≤ x then ⌊x⌋ else ⌈x⌉

/-- The `SortedByMagnitude` comparator puts `a` no later than `b` when the
integer-quantised magnitude is smaller, with exact quantised ties broken
by the domain name.  (With unique domain names this is a total order, so
the unstable Go sort has a unique result, and its equal-name `panic` is
unreachable.) -/
def magLE (a b : DomainMagnitude) : Prop :=
  goTrunc (a.magnitude * 1000) < goTrunc (b.magnitude * 1000) ∨
    (goTrunc (a.magnitude * 1000) = goTrunc (b.magnitude * 1000) ∧ a.domain ≤ b.domain)

/-- The ranking entries in the order the map carries them, before sorting. -/
noncomputable def MagnitudeDataset.magEntries (ds : MagnitudeDataset) :
    List DomainMagnitude :=
  ds.domains.map (fun p =>
    { domain := p.1, magnitude := magnitudeOf ds.allClientsCount p.2, domainHll := p.2 })

/-- `SortedByMagnitude`: the Go `slices.SortFunc` is an unstable comparison
sort, but the comparator is a total order whenever domain names are unique
(the comparator's equal-name branch is an unreachable `panic`), so its
output is the unique `magLE`-sorted permutation, here produced by
insertion sort. -/
noncomputable def MagnitudeDataset.SortedByMagnitude (ds : MagnitudeDataset) :
    List DomainMagnitude :=
  @List.insertionSort DomainMagnitude magLE (fun a b => Classical.propDecidable _)
    ds.magEntries

/-- `Truncate`: keep only the top `maxDomains` entries of the ranking. -/
noncomputable def MagnitudeDataset.Truncate (ds : MagnitudeDataset) (maxDomains : Int) :
    MagnitudeDataset :=
  if maxDomains ≤ 0 ∨ (ds.domains.length : Int) ≤ maxDomains then ds
  else
    let sorted := ds.SortedByMagnitude
    let idx : Int := max ((sorted.length : Int) - maxDomains) 0
    let top := sorted.drop idx.toNat
    { ds with domains := top.foldl (fun m dm => alistInsert dm.domain dm.domainHll m) [] }

/-! #### Aggregation (`AggregateDatasets`) -/

def versionMismatchMsg (d d0 : MagnitudeDataset) : String :=
  "version mismatch: dataset " ++ d.extraSourceFilename ++ " has version " ++
    toDec d.version ++ ", expected " ++ toDec d0.version

def dateMismatchMsg (d d0 : MagnitudeDataset) : String :=
  "date mismatch: dataset " ++ d.extraSourceFilename ++ " has date " ++
    d.dateString ++ ", expected " ++ d0.dateString

/-- The verification loop: every input must match the first input's version
and date, the first mismatch reporting the offending input and the
expected value (version checked before date for each input, inputs in
order). -/
def checkConsistency (d0 : MagnitudeDataset) : List MagnitudeDataset → Except String Unit
  | [] => .ok ()
  | d :: rest =>
    if d.version ≠ d0.version then .error (versionMismatchMsg d d0)
    else if d.dateString ≠ d0.dateString then .error (dateMismatchMsg d d0)
    else checkConsistency d0 rest

def aggGlobalHll (res ds : MagnitudeDataset) : Except String MagnitudeDataset :=
  match res.allClientsHll.strictUnion ds.allClientsHll with
  | .error e => .error ("failed to union all clients HLL: " ++ e)
  | .ok h => .ok { res with allClientsHll := h }

def aggExtras (res ds : MagnitudeDataset) : MagnitudeDataset :=
  { res with
    extraAllClients := ds.extraAllClients.foldl (fun l c => setInsert c l) res.extraAllClients
    extraV6Clients := ds.extraV6Clients.foldl (fun l c => setInsert c l) res.extraV6Clients
    extraAllDomains := ds.extraAllDomains.foldl (fun l c => setInsert c l) res.extraAllDomains }

def aggDomain (res : MagnitudeDataset) (p : String × DomainData) :
    Except String MagnitudeDataset :=
  let this := (alistLookup p.1 res.domains).getD newDomain
  let this := { this with queriesCount := (this.queriesCount + p.2.queriesCount) % 2 ^ 64 }
  match this.hll.strictUnion p.2.hll with
  | .error e => .error ("failed to union HLL for domain " ++ p.1 ++ ": " ++ e)
  | .ok h =>
    let this := { this with
      hll := h
      extraAllClients := p.2.extraAllClients.foldl (fun l c => setInsert c l) this.extraAllClients }
    .ok { res with domains := alistInsert p.1 this res.domains }

def aggDomains (res ds : MagnitudeDataset) : Except String MagnitudeDataset :=
  ds.domains.foldlM aggDomain
    { res with allQueriesCount := (res.allQueriesCount + ds.allQueriesCount) % 2 ^ 64 }

def AggregateDatasets (datasets : List MagnitudeDataset) :
    Except String MagnitudeDataset :=
  match datasets with
  | [] => .error "no datasets to aggregate"
  | [_] => .error "no datasets to aggregate"
  | d0 :: _ => do
    checkConsistency d0 datasets
    let res := newDataset (some d0.date)
    let res ← datasets.foldlM aggGlobalHll res
    let res := datasets.foldl aggExtras res
    let res ← datasets.foldlM aggDomains res
    .ok res.finaliseStats

/-! ### Bit- and byte-level utilities for the storage encodings -/

/-- The `w` bits of `n % 2^w`, most significant first. -/
def bitsBE : Nat → Nat → List Bool
  | 0, _ => []
  | w + 1, n => bitsBE w (n / 2) ++ [decide (n % 2 = 1)]

def fromBitsBE (bs : List Bool) : Nat :=
  bs.foldl (fun acc b => 2 * acc + (if b then 1 else 0)) 0

/-- The `w` bytes of `n % 256^w`, most significant first. -/
def bytesBE : Nat → Nat → List Nat
  | 0, _ => []
  | w + 1, n => bytesBE w (n / 256) ++ [n % 256]

def readBE (bs : List Nat) : Nat :=
  bs.foldl (fun acc b => acc * 256 + b) 0

/-- Pack a bit string into bytes, eight at a time (callers pad first). -/
def bitsToBytes : List Bool → List Nat
  | b0 :: b1 :: b2 :: b3 :: b4 :: b5 :: b6 :: b7 :: rest =>
    fromBitsBE [b0, b1, b2, b3, b4, b5, b6, b7] :: bitsToBytes rest
  | _ => []

def bytesToBits (bs : List Nat) : List Bool :=
  bs.foldr (fun b acc => bitsBE 8 b ++ acc) []

/-- Zero-pad a bit string to a whole number of bytes. -/
def padBits (bits : List Bool) : List Bool :=
  bits ++ List.replicate ((8 - bits.length % 8) % 8) false

/-! ### HLL storage codec

`Hll.ToBytes`/`hll.FromBytes` of the go-hll library implement the
published HLL storage specification.  The repository only ever writes the
states its production configuration reaches through `AddRaw`/union, which
the library stores in the SPARSE (or, when empty, EMPTY) scheme: a
three-byte header — schema version/type, `(regwidth-1)<<5 | log2m`,
cutoff byte `0x40` (sparse enabled, explicit disabled) — followed by the
occupied registers in ascending index order as packed
`(log2m + regwidth)`-bit `(index << regwidth) | value` words, zero-padded
to a byte boundary.  This encoding is validated bit-exactly against the
repository's interop vectors in the C9 section below. -/

def wordBits (log2m regwidth : Nat) (p : Nat × Nat) : List Bool :=
  bitsBE (log2m + regwidth) (p.1 * 2 ^ regwidth + p.2)

def Hll.toBytes (h : Hll) : List Nat :=
  let param := (h.settings.regwidth - 1) * 32 + h.settings.log2m
  if h.regs = [] then [0x11, param, 0x40]
  else
    [0x13, param, 0x40] ++
      bitsToBytes (padBits (h.regs.foldr
        (fun p acc => wordBits h.settings.log2m h.settings.regwidth p ++ acc) []))

/-- Read `k` packed register words off a bit string. -/
def takeWords (log2m regwidth : Nat) : Nat → List Bool → List (Nat × Nat)
  | 0, _ => []
  | k + 1, bits =>
    let w := fromBitsBE (bits.take (log2m + regwidth))
    (w / 2 ^ regwidth, w % 2 ^ regwidth) :: takeWords log2m regwidth k (bits.drop (log2m + regwidth))

def Hll.fromBytes (bs : List Nat) : Except String Hll :=
  match bs with
  | v :: p :: c :: rest =>
    let settings : HllSettings := ⟨p % 32, p / 32 + 1⟩
    if v = 0x11 ∧ c = 0x40 ∧ rest = [] then .ok ⟨settings, []⟩
    else if v = 0x13 ∧ c = 0x40 then
      let bits := bytesToBits rest
      let width := settings.log2m + settings.regwidth
      .ok ⟨settings, takeWords settings.log2m settings.regwidth (bits.length / width) bits⟩
    else .error "unsupported hll encoding"
  | _ => .error "invalid hll encoding"

/-- Well-formedness of the estimator states this program constructs:
registers ascending, parameters in the storage-format ranges, register
indices and values in range (values at least 1: every observation is). -/
def Hll.wf (h : Hll) : Prop :=
  regSorted h.regs ∧ h.settings.log2m < 32 ∧ 1 ≤ h.settings.regwidth ∧
    h.settings.regwidth ≤ 8 ∧
    ∀ p ∈ h.regs, p.1 < 2 ^ h.settings.log2m ∧ 1 ≤ p.2 ∧ p.2 < 2 ^ h.settings.regwidth

/-! ### CBOR codec (`src/internal/store.go`, second revision)

`fxamacker/cbor` encodes the dataset struct as a CBOR map whose keys are
the `cbor:` field tags in declaration order (default `EncOptions`, no
sorting), the estimators as byte strings holding their storage encoding
(`HLLWrapper.MarshalCBOR`), and the date as tag 1004 with an ISO-8601
date-only string (`TimeWrapper.MarshalCBOR`).  The decoders below accept
the canonical layout the encoder produces — the general library also
accepts field permutations, which no stream in this development
exercises. -/

/-- Minimal-length CBOR head for major type `maj` (< 8) and argument
`arg` (< 2^64). -/
def cborHead (maj arg : Nat) : List Nat :=
  if arg < 24 then [maj * 32 + arg]
  else if arg < 2 ^ 8 then [maj * 32 + 24, arg]
  else if arg < 2 ^ 16 then (maj * 32 + 25) :: bytesBE 2 arg
  else if arg < 2 ^ 32 then (maj * 32 + 26) :: bytesBE 4 arg
  else (maj * 32 + 27) :: bytesBE 8 arg

def decodeHead : List Nat → Option ((Nat × Nat) × List Nat)
  | [] => none
  | b :: rest =>
    let maj := b / 32
    let info := b % 32
    if info < 24 then some ((maj, info), rest)
    else if info = 24 then
      match rest with
      | a :: r => some ((maj, a), r)
      | [] => none
    else if info = 25 then
      if 2 ≤ rest.length then some ((maj, readBE (rest.take 2)), rest.drop 2) else none
    else if info = 26 then
      if 4 ≤ rest.length then some ((maj, readBE (rest.take 4)), rest.drop 4) else none
    else if info = 27 then
      if 8 ≤ rest.length then some ((maj, readBE (rest.take 8)), rest.drop 8) else none
    else none

def encodeUint (n : Nat) : List Nat := cborHead 0 n

def decodeUintItem (bs : List Nat) : Option (Nat × List Nat) :=
  match decodeHead bs with
  | some ((maj, n), r) => if maj = 0 then some (n, r) else none
  | none => none

def encodeBytesItem (bs : List Nat) : List Nat := cborHead 2 bs.length ++ bs

def decodeBytesItem (bs : List Nat) : Option (List Nat × List Nat) :=
  match decodeHead bs with
  | some ((maj, n), r) =>
    if maj = 2 ∧ n ≤ r.length then some (r.take n, r.drop n) else none
  | none => none

/-- Text item; the strings this program writes are ASCII, one byte per
character. -/
def encodeTextItem (s : String) : List Nat :=
  cborHead 3 s.data.length ++ s.data.map Char.toNat

def decodeTextItem (bs : List Nat) : Option (String × List Nat) :=
  match decodeHead bs with
  | some ((maj, n), r) =>
    if maj = 3 ∧ n ≤ r.length then some (String.mk ((r.take n).map Char.ofNat), r.drop n)
    else none
  | none => none

def expectText (key : String) (bs : List Nat) : Option (List Nat) :=
  match decodeTextItem bs with
  | some (s, r) => if s = key then some r else none
  | none => none

def decodeHllItem (bs : List Nat) : Option (Hll × List Nat) :=
  match decodeBytesItem bs with
  | some (raw, r) =>
    match Hll.fromBytes raw with
    | .ok h => some (h, r)
    | .error _ => none
  | none => none

/-- Tag 1004 with date-only string content (`TimeWrapper`). -/
def encodeDateItem (d : Date) : List Nat :=
  cborHead 6 1004 ++ encodeTextItem d.string

def decodeDateItem (bs : List Nat) : Option (Date × List Nat) :=
  match decodeHead bs with
  | some ((maj, n), r) =>
    if maj = 6 ∧ n = 1004 then
      match decodeTextItem r with
      | some (s, r') =>
        match parseDateOnly s with
        | some d => some (d, r')
        | none => none
      | none => none
    else none
  | none => none

def encodeDomainData (dd : DomainData) : List Nat :=
  cborHead 5 3 ++
    encodeTextItem "clients_hll" ++ encodeBytesItem dd.hll.toBytes ++
    encodeTextItem "clients_count" ++ encodeUint dd.clientsCount ++
    encodeTextItem "queries_count" ++ encodeUint dd.queriesCount

def decodeDomainData (bs : List Nat) : Option (DomainData × List Nat) :=
  match decodeHead bs with
  | some ((maj, n), r) =>
    if hmn : maj = 5 ∧ n = 3 then
    match expectText "clients_hll" r with
    | some r =>
      match decodeHllItem r with
      | some (h, r) =>
        match expectText "clients_count" r with
        | some r =>
          match decodeUintItem r with
          | some (cc, r) =>
            match expectText "queries_count" r with
            | some r =>
              match decodeUintItem r with
              | some (qc, r) =>
                some ({ hll := h, clientsCount := cc, queriesCount := qc,
                        extraAllClients := [] }, r)
              | none => none
            | none => none
          | none => none
        | none => none
      | none => none
    | none => none
    else none
  | none => none

def encodeDataset (ds : MagnitudeDataset) : List Nat :=
  cborHead 5 8 ++
    encodeTextItem "version" ++ encodeUint ds.version ++
    encodeTextItem "id" ++ encodeTextItem ds.identifier ++
    encodeTextItem "generator" ++ encodeTextItem ds.generator ++
    encodeTextItem "date" ++ encodeDateItem ds.date ++
    encodeTextItem "all_clients_hll" ++ encodeBytesItem ds.allClientsHll.toBytes ++
    encodeTextItem "all_clients_count" ++ encodeUint ds.allClientsCount ++
    encodeTextItem "all_queries_count" ++ encodeUint ds.allQueriesCount ++
    encodeTextItem "domains" ++ cborHead 5 ds.domains.length ++
    (ds.domains.foldr (fun p acc => encodeTextItem p.1 ++ encodeDomainData p.2 ++ acc) [])

/-- `MarshalDatasetToCBOR` / `cbor.Marshal` of a dataset. -/
def MarshalDatasetToCBOR (ds : MagnitudeDataset) : List Nat := encodeDataset ds

def decodeDomains : Nat → List Nat → Option (List (String × DomainData) × List Nat)
  | 0, bs => some ([], bs)
  | k + 1, bs =>
    match decodeTextItem bs with
    | some (name, r) =>
      match decodeDomainData r with
      | some (dd, r) =>
        match decodeDomains k r with
        | some (rest, r') => some ((name, dd) :: rest, r')
        | none => none
      | none => none
    | none => none

/-- `cbor.UnmarshalFirst` into a `MagnitudeDataset`: decode exactly one
complete top-level value off the head of the buffer, returning the
remainder.  The unexported `extra*` fields are not part of the wire
format and come back empty; a version that does not fit `uint16` is a
range error. -/
def decodeDataset (bs : List Nat) : Option (MagnitudeDataset × List Nat) :=
  match decodeHead bs with
  | some ((maj, n), r) =>
    if hmn : maj = 5 ∧ n = 8 then
    match expectText "version" r with
    | some r =>
      match decodeUintItem r with
      | some (v, r) =>
        match expectText "id" r with
        | some r =>
          match decodeTextItem r with
          | some (ident, r) =>
            match expectText "generator" r with
            | some r =>
              match decodeTextItem r with
              | some (gen, r) =>
                match expectText "date" r with
                | some r =>
                  match decodeDateItem r with
                  | some (date, r) =>
                    match expectText "all_clients_hll" r with
                    | some r =>
                      match decodeHllItem r with
                      | some (ghll, r) =>
                        match expectText "all_clients_count" r with
                        | some r =>
                          match decodeUintItem r with
                          | some (acc, r) =>
                            match expectText "all_queries_count" r with
                            | some r =>
                              match decodeUintItem r with
                              | some (aqc, r) =>
                                match expectText "domains" r with
                                | some r =>
                                  match decodeHead r with
                                  | some ((mj2, dn), r) =>
                                    if hmj2 : mj2 = 5 then
                                    match decodeDomains dn r with
                                    | some (doms, r') =>
                                      if v < 2 ^ 16 then
                                        some ({ version := v, identifier := ident,
                                                generator := gen, date := date,
                                                allClientsHll := ghll,
                                                allClientsCount := acc,
                                                allQueriesCount := aqc,
                                                domains := doms,
                                                extraAllClients := [],
                                                extraV6Clients := [],
                                                extraAllDomains := [],
                                                extraSourceFilename := "" }, r')
                                      else none
                                    | none => none
                                    else none
                                  | none => none
                                | none => none
                              | none => none
                            | none => none
                          | none => none
                        | none => none
                      | none => none
                    | none => none
                  | none => none
                | none => none
              | none => none
            | none => none
          | none => none
        | none => none
      | none => none
    | none => none
    else none
  | none => none

/-! #### Decoder consumption lemmas

Every successful decode consumes at least one byte; these bounds drive the
termination of the incremental reader's inner loop. -/

theorem decodeHead_length {bs : List Nat} {mn : Nat × Nat} {r : List Nat}
    (h : decodeHead bs = some (mn, r)) : r.length < bs.length := by
  match bs with
  | [] => simp [decodeHead] at h
  | b :: rest =>
    simp only [decodeHead] at h
    split at h
    · simp only [Option.some.injEq, Prod.mk.injEq] at h
      obtain ⟨_, hr⟩ := h; subst hr; simp
    · split at h
      · split at h
        · rename_i a r2
          simp only [Option.some.injEq, Prod.mk.injEq] at h
          obtain ⟨_, hr⟩ := h; subst hr; simp; omega
        · exact absurd h (by simp)
      · split at h
        · split at h
          · simp only [Option.some.injEq, Prod.mk.injEq] at h
            obtain ⟨_, hr⟩ := h; subst hr; simp [List.length_drop]; omega
          · exact absurd h (by simp)
        · split at h
          · split at h
            · simp only [Option.some.injEq, Prod.mk.injEq] at h
              obtain ⟨_, hr⟩ := h; subst hr; simp [List.length_drop]; omega
            · exact absurd h (by simp)
          · split at h
            · split at h
              · simp only [Option.some.injEq, Prod.mk.injEq] at h
                obtain ⟨_, hr⟩ := h; subst hr; simp [List.length_drop]; omega
              · exact absurd h (by simp)
            · exact absurd h (by simp)

theorem decodeUintItem_length {bs : List Nat} {n : Nat} {r : List Nat}
    (h : decodeUintItem bs = some (n, r)) : r.length < bs.length := by
  unfold decodeUintItem at h
  split at h
  · rename_i mn r0 heq
    split at h
    · simp only [Option.some.injEq, Prod.mk.injEq] at h
      obtain ⟨_, hr⟩ := h; subst hr
      exact decodeHead_length heq
    · exact absurd h (by simp)
  · exact absurd h (by simp)

theorem decodeBytesItem_length {bs : List Nat} {v r : List Nat}
    (h : decodeBytesItem bs = some (v, r)) : r.length < bs.length := by
  unfold decodeBytesItem at h
  split at h
  · rename_i mn r0 heq
    split at h
    · simp only [Option.some.injEq, Prod.mk.injEq] at h
      obtain ⟨_, hr⟩ := h; subst hr
      have := decodeHead_length heq
      simp only [List.length_drop]
      omega
    · exact absurd h (by simp)
  · exact absurd h (by simp)

theorem decodeTextItem_length {bs : List Nat} {s : String} {r : List Nat}
    (h : decodeTextItem bs = some (s, r)) : r.length < bs.length := by
  unfold decodeTextItem at h
  split at h
  · rename_i mn r0 heq
    split at h
    · simp only [Option.some.injEq, Prod.mk.injEq] at h
      obtain ⟨_, hr⟩ := h; subst hr
      have := decodeHead_length heq
      simp only [List.length_drop]
      omega
    · exact absurd h (by simp)
  · exact absurd h (by simp)

theorem expectText_length {key : String} {bs r : List Nat}
    (h : expectText key bs = some r) : r.length < bs.length := by
  unfold expectText at h
  split at h
  · rename_i s r0 heq
    split at h
    · simp only [Option.some.injEq] at h; subst h
      exact decodeTextItem_length heq
    · exact absurd h (by simp)
  · exact absurd h (by simp)

theorem decodeHllItem_length {bs : List Nat} {v : Hll} {r : List Nat}
    (h : decodeHllItem bs = some (v, r)) : r.length < bs.length := by
  unfold decodeHllItem at h
  split at h
  · rename_i raw r0 heq
    split at h
    · simp only [Option.some.injEq, Prod.mk.injEq] at h
      obtain ⟨_, hr⟩ := h; subst hr
      exact decodeBytesItem_length heq
    · exact absurd h (by simp)
  · exact absurd h (by simp)

theorem decodeDateItem_length {bs : List Nat} {d : Date} {r : List Nat}
    (h : decodeDateItem bs = some (d, r)) : r.length < bs.length := by
  unfold decodeDateItem at h
  split at h
  · rename_i mn r0 heq
    split at h
    · split at h
      · rename_i s r1 heq2
        split at h
        · simp only [Option.some.injEq, Prod.mk.injEq] at h
          obtain ⟨_, hr⟩ := h; subst hr
          exact lt_trans (decodeTextItem_length heq2) (decodeHead_length heq)
        · exact absurd h (by simp)
      · exact absurd h (by simp)
    · exact absurd h (by simp)
  · exact absurd h (by simp)

theorem decodeDomainData_length {bs : List Nat} {dd : DomainData} {r : List Nat}
    (h : decodeDomainData bs = some (dd, r)) : r.length < bs.length := by
  unfold decodeDomainData at h
  split at h
  · rename_i mn r0 heq0
    split at h
    · split at h
      · rename_i r1 heq1
        split at h
        · rename_i hv r2 heq2
          split at h
          · rename_i r3 heq3
            split at h
            · rename_i cc r4 heq4
              split at h
              · rename_i r5 heq5
                split at h
                · rename_i qc r6 heq6
                  simp only [Option.some.injEq, Prod.mk.injEq] at h
                  obtain ⟨_, hr⟩ := h; subst hr
                  have h0 := decodeHead_length heq0
                  have h1 := expectText_length heq1
                  have h2 := decodeHllItem_length heq2
                  have h3 := expectText_length heq3
                  have h4 := decodeUintItem_length heq4
                  have h5 := expectText_length heq5
                  have h6 := decodeUintItem_length heq6
                  omega
                · exact absurd h (by simp)
              · exact absurd h (by simp)
            · exact absurd h (by simp)
          · exact absurd h (by simp)
        · exact absurd h (by simp)
      · exact absurd h (by simp)
    · exact absurd h (by simp)
  · exact absurd h (by simp)

theorem decodeDomains_length {k : Nat} {bs : List Nat}
    {l : List (String × DomainData)} {r : List Nat}
    (h : decodeDomains k bs = some (l, r)) : r.length ≤ bs.length := by
  induction k generalizing bs l r with
  | zero =>
    unfold decodeDomains at h
    simp only [Option.some.injEq, Prod.mk.injEq] at h
    obtain ⟨_, hr⟩ := h; subst hr; exact le_refl _
  | succ k ih =>
    unfold decodeDomains at h
    split at h
    · rename_i name r0 heq0
      split at h
      · rename_i dd r1 heq1
        split at h
        · rename_i rest r2 heq2
          simp only [Option.some.injEq, Prod.mk.injEq] at h
          obtain ⟨_, hr⟩ := h; subst hr
          have h0 := decodeTextItem_length heq0
          have h1 := decodeDomainData_length heq1
          have h2 := ih heq2
          omega
        · exact absurd h (by simp)
      · exact absurd h (by simp)
    · exact absurd h (by simp)

theorem decodeDataset_length {bs : List Nat} {ds : MagnitudeDataset} {r : List Nat}
    (h : decodeDataset bs = some (ds, r)) : r.length < bs.length := by
  unfold decodeDataset at h
  split at h
  · rename_i mn r0 heq0
    split at h
    · split at h
      · rename_i r1 heq1
        split at h
        · rename_i v r2 heq2
          split at h
          · rename_i r3 heq3
            split at h
            · rename_i ident r4 heq4
              split at h
              · rename_i r5 heq5
                split at h
                · rename_i gen r6 heq6
                  split at h
                  · rename_i r7 heq7
                    split at h
                    · rename_i date r8 heq8
                      split at h
                      · rename_i r9 heq9
                        split at h
                        · rename_i ghll r10 heq10
                          split at h
                          · rename_i r11 heq11
                            split at h
                            · rename_i acc r12 heq12
                              split at h
                              · rename_i r13 heq13
                                split at h
                                · rename_i aqc r14 heq14
                                  split at h
                                  · rename_i r15 heq15
                                    split at h
                                    · rename_i mn2 r16 heq16
                                      split at h
                                      · split at h
                                        · rename_i doms r17 heq17
                                          split at h
                                          · simp only [Option.some.injEq,
                                              Prod.mk.injEq] at h
                                            obtain ⟨_, hr⟩ := h; subst hr
                                            have g0 := decodeHead_length heq0
                                            have g1 := expectText_length heq1
                                            have g2 := decodeUintItem_length heq2
                                            have g3 := expectText_length heq3
                                            have g4 := decodeTextItem_length heq4
                                            have g5 := expectText_length heq5
                                            have g6 := decodeTextItem_length heq6
                                            have g7 := expectText_length heq7
                                            have g8 := decodeDateItem_length heq8
                                            have g9 := expectText_length heq9
                                            have g10 := decodeHllItem_length heq10
                                            have g11 := expectText_length heq11
                                            have g12 := decodeUintItem_length heq12
                                            have g13 := expectText_length heq13
                                            have g14 := decodeUintItem_length heq14
                                            have g15 := expectText_length heq15
                                            have g16 := decodeHead_length heq16
                                            have g17 := decodeDomains_length heq17
                                            omega
                                          · exact absurd h (by simp)
                                        · exact absurd h (by simp)
                                      · exact absurd h (by simp)
                                    · exact absurd h (by simp)
                                  · exact absurd h (by simp)
                                · exact absurd h (by simp)
                              · exact absurd h (by simp)
                            · exact absurd h (by simp)
                          · exact absurd h (by simp)
                        · exact absurd h (by simp)
                      · exact absurd h (by simp)
                    · exact absurd h (by simp)
                  · exact absurd h (by simp)
                · exact absurd h (by simp)
              · exact absurd h (by simp)
            · exact absurd h (by simp)
          · exact absurd h (by simp)
        · exact absurd h (by simp)
      · exact absurd h (by simp)
    · exact absurd h (by simp)
  · exact absurd h (by simp)

/-! ### Sequence loading (`DatasetSequence`, `src/internal/store.go`)

The byte source is modelled as the list of chunks successive `Read` calls
deliver, with `io.EOF` reported by the first call after the last chunk
(`n = 0`), as pipes and `bytes.Reader` do.  The dates of datasets are
always non-nil in the model, so `addDataset`'s nil guards have no
counterpart; the warning line written to the logger on a forced date
override is I/O and is not modelled. -/

structure DatasetSequence where
  numDomains : Int
  Count : Nat
  Result : MagnitudeDataset
  forceDate : Bool

def NewDatasetSequence (numDomains : Int) (date : Option Date) (forceDate : Bool) :
    DatasetSequence :=
  { numDomains := numDomains, Count := 0, Result := newDataset date, forceDate := forceDate }

/-- `addDataset`: the first dataset seeds the result; every further one is
merged into it via the Aggregator, then the result is truncated to the
top `numDomains` domains. -/
noncomputable def DatasetSequence.addDataset (seq : DatasetSequence)
    (dataset : MagnitudeDataset) : Except String DatasetSequence :=
  let dataset :=
    if seq.forceDate ∧ dataset.dateString ≠ seq.Result.dateString then
      dataset.setDate (some seq.Result.date)
    else dataset
  if seq.Count = 0 then .ok { seq with Result := dataset, Count := 1 }
  else
    match AggregateDatasets [seq.Result, dataset] with
    | .error e => .error ("failed to aggregate datasets: " ++ e)
    | .ok aggregated =>
      .ok { seq with Result := aggregated.Truncate seq.numDomains, Count := seq.Count + 1 }

/-- The reader's inner loop: decode complete values off the buffer head
while possible; a failed decode is a hard error at EOF and a request for
more input otherwise. -/
noncomputable def drainBuffer (fmt : Nat → String) (eof : Bool) (seq : DatasetSequence)
    (seqNum : Nat) (buffer : List Nat) :
    Except String (DatasetSequence × Nat × List Nat) :=
  if buffer = [] then .ok (seq, seqNum, buffer)
  else
    match hd : decodeDataset buffer with
    | none => if eof then .error "failed to unmarshal CBOR" else .ok (seq, seqNum, buffer)
    | some (d, remaining) =>
      match (DatasetSequence.addDataset seq
          { d.finaliseStats with extraSourceFilename := fmt seqNum }) with
      | .error e => .error e
      | .ok seq' => drainBuffer fmt eof seq' (seqNum + 1) remaining
termination_by buffer.length
decreasing_by exact decodeDataset_length hd

/-- The reader's outer loop over the chunks the source delivers. -/
noncomputable def loadLoop (fmt : Nat → String) (seq : DatasetSequence) (seqNum : Nat)
    (buffer : List Nat) : List (List Nat) → Except String DatasetSequence
  | [] =>
    match drainBuffer fmt true seq seqNum buffer with
    | .error e => .error e
    | .ok (seq', _, buffer') =>
      if buffer' = [] then .ok seq'
      else .error ("remaining " ++ toDec buffer'.length ++
        " bytes in buffer could not be parsed as CBOR")
  | c :: rest =>
    match drainBuffer fmt false seq seqNum (buffer ++ c) with
    | .error e => .error e
    | .ok (seq', seqNum', buffer') => loadLoop fmt seq' seqNum' buffer' rest

/-- `LoadDNSMagSequenceFromReader`: fold every dataset decodable from the
chunked byte stream into the running result. -/
noncomputable def LoadDNSMagSequenceFromReader (seq : DatasetSequence)
    (fmt : Nat → String) (chunks : List (List Nat)) : Except String DatasetSequence :=
  loadLoop fmt seq 1 [] chunks

/-! ### Decidable equality for `Except` results (used by concrete checks) -/

instance exceptDecidableEq {α β : Type} [DecidableEq α] [DecidableEq β] :
    DecidableEq (Except α β) := fun x y =>
  match x, y with
  | .ok a, .ok b =>
    if h : a = b then .isTrue (by rw [h]) else .isFalse (by intro hc; cases hc; exact h rfl)
  | .error a, .error b =>
    if h : a = b then .isTrue (by rw [h]) else .isFalse (by intro hc; cases hc; exact h rfl)
  | .ok _, .error _ => .isFalse (by intro hc; cases hc)
  | .error _, .ok _ => .isFalse (by intro hc; cases hc)

/-! ## Claim theorems -/

/-- The parsed, truncated and hashed form of `"192.0.2.1"`. -/
def interopV4 : IPAddress :=
  { ipAddress := .v4 [192, 0, 2, 1]
    truncatedIP := .v4 [192, 0, 2, 0]
    hashInput := [0, 0, 0, 0, 0, 0, 0, 0, 0, 0, 0xff, 0xff, 0xc0, 0, 2, 0]
    hash := 0xb15ce949ae6f3312 }

/-- The parsed, truncated and hashed form of `"2001:503:ba3e::2:30"`. -/
def interopV6 : IPAddress :=
  { ipAddress := .v6 [0x20, 0x01, 0x05, 0x03, 0xba, 0x3e, 0, 0, 0, 0, 0, 0, 0, 2, 0, 0x30]
    truncatedIP := .v6 [0x20, 0x01, 0x05, 0x03, 0xba, 0x3e, 0, 0, 0, 0, 0, 0, 0, 0, 0, 0]
    hashInput := [0x20, 0x01, 0x05, 0x03, 0xba, 0x3e, 0, 0, 0, 0, 0, 0, 0, 0, 0, 0]
    hash := 0x1a8286592f9f366d }

/-! ### C1: updateStats counter semantics -/

/-- The per-domain query count a dataset records for `d` (0 when `d` has no
record). -/
def domainQueries (ds : MagnitudeDataset) (d : String) : Nat :=
  ((alistLookup d ds.domains).map DomainData.queriesCount).getD 0

/-! ### C4: version and date of a merged dataset -/

def exceptIsOk {α β : Type} : Except α β → Bool
  | .ok _ => true
  | .error _ => false

/-- C4 counterexample input: a dataset carrying format version 2. -/
def c4ds : MagnitudeDataset := { newDataset (some ⟨2025, 1, 1, 0⟩) with version := 2 }

/-- All the estimators of a dataset use the production configuration — true
of every dataset this program builds. -/
def dsDefaultSettings (ds : MagnitudeDataset) : Prop :=
  ds.allClientsHll.settings = defaultSettings ∧
    ∀ p ∈ ds.domains, p.2.hll.settings = defaultSettings

/-- C3 counterexample input: a dataset whose global estimator carries a
non-production configuration (`log2m = 13`), as a crafted or foreign CBOR
file can supply. -/
def c3ds : MagnitudeDataset :=
  { newDataset (some ⟨2025, 1, 1, 0⟩) with allClientsHll := ⟨⟨13, 5⟩, []⟩ }

/-- The deduplicated verbose client set a first self-merge pass leaves in a
domain record. -/
def selfExtras (dd : DomainData) : List NetAddr :=
  dd.extraAllClients.foldl (fun l c => setInsert c l) []

/-- The per-domain record after `k` self-merge passes. -/
def selfT (k : Nat) (p : String × DomainData) : String × DomainData :=
  (p.1, { hll := ⟨defaultSettings, p.2.hll.regs⟩
          clientsCount := 0
          queriesCount := k * p.2.queriesCount
          extraAllClients := selfExtras p.2 })

instance regSortedDecidable (l : List (Nat × Nat)) : Decidable (regSorted l) :=
  inferInstanceAs (Decidable (l.Pairwise _))

instance dsDefaultSettingsDecidable (ds : MagnitudeDataset) :
    Decidable (dsDefaultSettings ds) :=
  inferInstanceAs (Decidable (_ ∧ _))

/-- A small finalized production dataset (one domain, one client, two
queries). -/
def c2D : MagnitudeDataset :=
  ((newDataset (some ⟨2025, 1, 1, 0⟩)).updateStats "example.com" interopV4 2
    false).1.finaliseStats

/-- The claim's ranking order, stated from the claim's words for
comparison: ascending by (true, real-valued) magnitude with ties broken
lexicographically by domain name. -/
def specMagLE (a b : DomainMagnitude) : Prop :=
  a.magnitude < b.magnitude ∨ (a.magnitude = b.magnitude ∧ a.domain ≤ b.domain)

/-- Domain `"a"`: 1001 estimated clients (modelled directly in the
counter; the estimator contents are irrelevant to the ranking). -/
def c5dda : DomainData :=
  { hll := emptyHll, clientsCount := 1001, queriesCount := 0, extraAllClients := [] }

/-- Domain `"b"`: 1000 estimated clients. -/
def c5ddb : DomainData :=
  { hll := emptyHll, clientsCount := 1000, queriesCount := 0, extraAllClients := [] }

/-- A dataset with two domains whose true magnitudes differ but whose
integer-quantised magnitudes (`int(m*1000)`) coincide: with a global count
of 10^6, domain `"a"` has magnitude 10·ln 1001/ln 10^6 and `"b"` exactly 5,
both quantising to 5000. -/
def c5ds : MagnitudeDataset :=
  { version := 1, identifier := modelUUID, generator := goVersionString,
    date := ⟨2025, 1, 1, 0⟩, allClientsHll := emptyHll,
    allClientsCount := 1000000, allQueriesCount := 2001,
    domains := [("a", c5dda), ("b", c5ddb)],
    extraAllClients := [], extraV6Clients := [], extraAllDomains := [],
    extraSourceFilename := "" }

/-- The ranking entry of domain `"a"` in `c5ds`. -/
noncomputable def c5ea : DomainMagnitude :=
  { domain := "a", magnitude := magnitudeOf 1000000 c5dda, domainHll := c5dda }

/-- The ranking entry of domain `"b"` in `c5ds`. -/
noncomputable def c5eb : DomainMagnitude :=
  { domain := "b", magnitude := magnitudeOf 1000000 c5ddb, domainHll := c5ddb }

/-- The dataset as it appears on the wire: the unexported `extra*` fields
are not serialized, everything else is. -/
def wireView (ds : MagnitudeDataset) : MagnitudeDataset :=
  { version := ds.version, identifier := ds.identifier, generator := ds.generator,
    date := ds.date, allClientsHll := ds.allClientsHll,
    allClientsCount := ds.allClientsCount, allQueriesCount := ds.allQueriesCount,
    domains := ds.domains.map (fun p => (p.1, { p.2 with extraAllClients := [] })),
    extraAllClients := [], extraV6Clients := [], extraAllDomains := [],
    extraSourceFilename := "" }

/-- Side conditions under which a dataset value is faithfully encodable:
counters fit `uint64`, the version fits `uint16`, the date prints and
reparses, and every estimator state is well-formed with at least byte-wide
packed words (the production width is 19 bits). -/
def EncodableDataset (ds : MagnitudeDataset) : Prop :=
  ds.version < 2 ^ 16 ∧
  ds.identifier.data.length < 2 ^ 64 ∧
  ds.generator.data.length < 2 ^ 64 ∧
  ds.date.string.data.length < 2 ^ 64 ∧
  parseDateOnly ds.date.string = some ds.date ∧
  ds.allClientsHll.wf ∧
  8 ≤ ds.allClientsHll.settings.log2m + ds.allClientsHll.settings.regwidth ∧
  ds.allClientsCount < 2 ^ 64 ∧
  ds.allQueriesCount < 2 ^ 64 ∧
  ds.domains.length < 2 ^ 64 ∧
  ∀ p ∈ ds.domains, p.1.data.length < 2 ^ 64 ∧ p.2.hll.wf ∧
    8 ≤ p.2.hll.settings.log2m + p.2.hll.settings.regwidth ∧
    p.2.clientsCount < 2 ^ 64 ∧ p.2.queriesCount < 2 ^ 64

instance hllWfDecidable (h : Hll) : Decidable h.wf :=
  inferInstanceAs (Decidable (_ ∧ _ ∧ _ ∧ _ ∧ _))

instance encodableDatasetDecidable (ds : MagnitudeDataset) :
    Decidable (EncodableDataset ds) :=
  inferInstanceAs (Decidable (_ ∧ _ ∧ _ ∧ _ ∧ _ ∧ _ ∧ _ ∧ _ ∧ _ ∧ _ ∧ _))

/-- The reference fold: finalize each decoded dataset and fold it into
the running result via the Aggregator, numbering the inputs. -/
noncomputable def foldDatasets (fmt : Nat → String) :
    DatasetSequence → Nat → List MagnitudeDataset →
      Except String (DatasetSequence × Nat)
  | seq, seqNum, [] => .ok (seq, seqNum)
  | seq, seqNum, d :: rest =>
    match DatasetSequence.addDataset seq
        { d.finaliseStats with extraSourceFilename := fmt seqNum } with
    | .error e => .error e
    | .ok seq' => foldDatasets fmt seq' (seqNum + 1) rest

/-- A finalized dataset with two distinct clients, both querying domain
`"com"`. -/
def c8ds : MagnitudeDataset :=
  (((newDataset (some ⟨2025, 1, 1, 0⟩)).updateStats "example.com" interopV4 1
    false).1.updateStats "x.com" interopV6 1 false).1.finaliseStats

/-- The single per-domain record of `c8ds`. -/
def c8dd : DomainData := (c8ds.domains.headD ("", newDomain)).2

/-- The single ranking entry of `c8ds`. -/
noncomputable def c8e : DomainMagnitude :=
  { domain := "com", magnitude := magnitudeOf c8ds.allClientsCount c8dd,
    domainHll := c8dd }

/-- Every entry of `regInsert idx v l` carries either the new key or a key
already present in `l`. -/
theorem key_of_mem_regInsert {l : List (Nat × Nat)} {idx v : Nat} {q : Nat × Nat}
    (hq : q ∈ regInsert idx v l) : q.1 = idx ∨ ∃ p ∈ l, q.1 = p.1 := by
  induction l with
  | nil => simp [regInsert] at hq; left; rw [hq]
  | cons p rest ih =>
    obtain ⟨i, w⟩ := p
    simp only [regInsert] at hq
    split at hq
    · rcases List.mem_cons.mp hq with h | h
      · left; rw [h]
      · right; exact ⟨q, h, rfl⟩
    · split at hq
      · rcases List.mem_cons.mp hq with h | h
        · right; exact ⟨(i, w), List.mem_cons_self _ _, by rw [h]⟩
        · right; exact ⟨q, List.mem_cons_of_mem _ h, rfl⟩
      · rcases List.mem_cons.mp hq with h | h
        · right; exact ⟨(i, w), List.mem_cons_self _ _, by rw [h]⟩
        · rcases ih h with h' | ⟨p', hp', he⟩
          · left; exact h'
          · right; exact ⟨p', List.mem_cons_of_mem _ hp', he⟩

theorem regSorted_insert {l : List (Nat × Nat)} (hs : regSorted l) (idx v : Nat) :
    regSorted (regInsert idx v l) := by
  induction l with
  | nil => simp [regInsert, regSorted]
  | cons p rest ih =>
    obtain ⟨i, w⟩ := p
    rw [regSorted, List.pairwise_cons] at hs
    simp only [regInsert]
    split
    · rename_i hlt
      rw [regSorted, List.pairwise_cons]
      refine ⟨?_, ?_⟩
      · intro q hq
        rcases List.mem_cons.mp hq with h | h
        · rw [h]; exact hlt
        · exact lt_trans hlt (hs.1 q h)
      · rw [List.pairwise_cons]; exact hs
    · split
      · rename_i hne heq
        rw [regSorted, List.pairwise_cons]
        exact hs
      · rename_i hne hne2
        rw [regSorted, List.pairwise_cons]
        refine ⟨?_, ih hs.2⟩
        intro q hq
        rcases key_of_mem_regInsert hq with h | ⟨p', hp', he⟩
        · simp only [h]; omega
        · rw [he]; exact hs.1 p' hp'

theorem regSorted_merge {l : List (Nat × Nat)} (m : List (Nat × Nat)) (hs : regSorted l) :
    regSorted (regMerge l m) := by
  induction m generalizing l with
  | nil => simpa [regMerge]
  | cons p rest ih =>
    obtain ⟨i, w⟩ := p
    simpa [regMerge] using ih (regSorted_insert hs i w)

/-- Re-observing a register value already present leaves the state unchanged. -/
theorem regInsert_of_mem {l : List (Nat × Nat)} (hs : regSorted l) {i w : Nat}
    (hm : (i, w) ∈ l) : regInsert i w l = l := by
  induction l with
  | nil => simp at hm
  | cons p rest ih =>
    obtain ⟨j, u⟩ := p
    rw [regSorted, List.pairwise_cons] at hs
    rcases List.mem_cons.mp hm with h | h
    · obtain ⟨h1, h2⟩ := Prod.mk.injEq i w j u ▸ h
      subst h1; subst h2
      simp [regInsert]
    · have hj : j < i := hs.1 (i, w) h
      simp only [regInsert, if_neg (by omega : ¬ i < j), if_neg (by omega : ¬ i = j)]
      rw [ih hs.2 h]

/-- Inserting a key above every present key appends. -/
theorem regInsert_append {l : List (Nat × Nat)} {i w : Nat}
    (hl : ∀ p ∈ l, p.1 < i) : regInsert i w l = l ++ [(i, w)] := by
  induction l with
  | nil => simp [regInsert]
  | cons p rest ih =>
    obtain ⟨j, u⟩ := p
    have hj : j < i := hl (j, u) (List.mem_cons_self _ _)
    simp only [regInsert, if_neg (by omega : ¬ i < j), if_neg (by omega : ¬ i = j),
      List.cons_append, List.cons.injEq, true_and]
    exact ih (fun p hp => hl p (List.mem_cons_of_mem _ hp))

/-- Merging a sorted continuation onto a sorted prefix is concatenation. -/
theorem regMerge_eq_append (m : List (Nat × Nat)) :
    ∀ l : List (Nat × Nat), regSorted (l ++ m) → regMerge l m = l ++ m := by
  induction m with
  | nil => intro l _; simp [regMerge]
  | cons p rest ih =>
    obtain ⟨i, w⟩ := p
    intro l hs
    have hlt : ∀ q ∈ l, q.1 < i := by
      intro q hq
      rw [regSorted, List.pairwise_append] at hs
      exact hs.2.2 q hq (i, w) (List.mem_cons_self _ _)
    have h1 : regInsert i w l = l ++ [(i, w)] := regInsert_append hlt
    have h2 : l ++ (i, w) :: rest = (l ++ [(i, w)]) ++ rest := by
      simp
    simp only [regMerge, h1]
    rw [h2] at hs
    rw [ih (l ++ [(i, w)]) hs, h2]

/-- Union with the empty estimator returns the other's registers. -/
theorem regMerge_nil (m : List (Nat × Nat)) (hs : regSorted m) :
    regMerge [] m = m := by
  simpa using regMerge_eq_append m [] (by simpa)

/-- Self-union is the identity on a sorted register list. -/
theorem regMerge_subset {l : List (Nat × Nat)} (hs : regSorted l) :
    ∀ m : List (Nat × Nat), (∀ p ∈ m, p ∈ l) → regMerge l m = l := by
  intro m
  induction m generalizing l with
  | nil => intro _; simp [regMerge]
  | cons p rest ih =>
    obtain ⟨i, w⟩ := p
    intro hsub
    simp only [regMerge]
    rw [regInsert_of_mem hs (hsub (i, w) (List.mem_cons_self _ _))]
    exact ih hs (fun q hq => hsub q (List.mem_cons_of_mem _ hq))

theorem regMerge_self {l : List (Nat × Nat)} (hs : regSorted l) :
    regMerge l l = l :=
  regMerge_subset hs l (fun _ hp => hp)

/-- C9: address normalization reproduces the fixed interop vectors
bit-exactly: `"192.0.2.1"` truncates to `"192.0.2.0"` with hash input
`00000000000000000000ffffc0000200` and XXH3 hash `0xb15ce949ae6f3312`;
`"2001:503:ba3e::2:30"` truncates to `"2001:503:ba3e::"` with hash input
`20010503ba3e00000000000000000000` and hash `0x1a8286592f9f366d`. -/
theorem c9_interop_vectors :
    NewIPAddressFromString "192.0.2.1" = .ok interopV4 ∧
    interopV4.truncatedIP.string = "192.0.2.0" ∧
    interopV4.hashInput =
      [0x00, 0x00, 0x00, 0x00, 0x00, 0x00, 0x00, 0x00, 0x00, 0x00, 0xff, 0xff,
        0xc0, 0x00, 0x02, 0x00] ∧
    interopV4.hash = 0xb15ce949ae6f3312 ∧
    NewIPAddressFromString "2001:503:ba3e::2:30" = .ok interopV6 ∧
    interopV6.truncatedIP.string = "2001:503:ba3e::" ∧
    interopV6.hashInput =
      [0x20, 0x01, 0x05, 0x03, 0xba, 0x3e, 0x00, 0x00, 0x00, 0x00, 0x00, 0x00,
        0x00, 0x00, 0x00, 0x00] ∧
    interopV6.hash = 0x1a8286592f9f366d := by
  refine ⟨?_, ?_, rfl, rfl, ?_, ?_, rfl, rfl⟩
  · rfl
  · rfl
  · rfl
  · rfl

/-! ### Association-list lemmas -/

theorem alistLookup_insert_self {α : Type} (k : String) (v : α) (m : List (String × α)) :
    alistLookup k (alistInsert k v m) = some v := by
  induction m with
  | nil => simp [alistInsert, alistLookup]
  | cons p rest ih =>
    obtain ⟨k', v'⟩ := p
    by_cases hk : k = k'
    · simp [alistInsert, alistLookup, hk]
    · simp [alistInsert, alistLookup, hk, ih]

theorem alistLookup_insert_other {α : Type} {k j : String} (hne : j ≠ k) (v : α)
    (m : List (String × α)) : alistLookup j (alistInsert k v m) = alistLookup j m := by
  induction m with
  | nil => simp [alistInsert, alistLookup, hne]
  | cons p rest ih =>
    obtain ⟨k', v'⟩ := p
    by_cases hk : k = k'
    · subst hk
      simp [alistInsert, alistLookup, hne, ih]
    · by_cases hj : j = k'
      · simp [alistInsert, alistLookup, hk, hj]
      · simp [alistInsert, alistLookup, hk, hj, ih]

/-- C1: for every valid non-root `(domain, address, count > 0)` (and
counters away from `uint64` wraparound), `updateStats` succeeds,
increases the dataset's global query count by exactly `count` and the
domain's query count by exactly `count`; for the root domain (empty name
or `"."`) only the global count increases and the domain map is
untouched; a zero query count changes nothing. -/
theorem c1_updateStats_counts :
    (∀ (ds : MagnitudeDataset) (domainStr : String) (src : IPAddress)
        (count : Nat) (verbose : Bool) (d : String),
      getDomainName domainStr DefaultDNSDomainNameLabels = .ok d → d ≠ "." → 0 < count →
      ds.allQueriesCount + count < 2 ^ 64 → domainQueries ds d + count < 2 ^ 64 →
      (ds.updateStats domainStr src count verbose).2 = none ∧
      (ds.updateStats domainStr src count verbose).1.allQueriesCount =
        ds.allQueriesCount + count ∧
      domainQueries (ds.updateStats domainStr src count verbose).1 d =
        domainQueries ds d + count) ∧
    (∀ (ds : MagnitudeDataset) (domainStr : String) (src : IPAddress)
        (count : Nat) (verbose : Bool),
      (domainStr = "" ∨ domainStr = ".") → 0 < count →
      ds.allQueriesCount + count < 2 ^ 64 →
      (ds.updateStats domainStr src count verbose).2 = none ∧
      (ds.updateStats domainStr src count verbose).1.allQueriesCount =
        ds.allQueriesCount + count ∧
      (ds.updateStats domainStr src count verbose).1.domains = ds.domains) ∧
    (∀ (ds : MagnitudeDataset) (domainStr : String) (src : IPAddress) (verbose : Bool),
      ds.updateStats domainStr src 0 verbose = (ds, none)) := by
  refine ⟨?_, ?_, ?_⟩
  · intro ds domainStr src count verbose d hget hroot hpos hov1 hov2
    have hc : ¬ count = 0 := by omega
    refine ⟨?_, ?_, ?_⟩
    · cases verbose <;> simp [MagnitudeDataset.updateStats, hget, hc, hroot]
    · cases verbose <;>
        (simp [MagnitudeDataset.updateStats, hget, hc, hroot] <;> omega)
    · cases hl : alistLookup d ds.domains with
      | none =>
        rw [domainQueries, hl] at hov2
        simp at hov2
        cases verbose <;>
          (simp [MagnitudeDataset.updateStats, hget, hc, hroot, domainQueries,
            alistLookup_insert_self, hl, newDomain] <;> omega)
      | some dd =>
        rw [domainQueries, hl] at hov2
        simp at hov2
        cases verbose <;>
          (simp [MagnitudeDataset.updateStats, hget, hc, hroot, domainQueries,
            alistLookup_insert_self, hl] <;> omega)
  · intro ds domainStr src count verbose hroot hpos hov
    have hc : ¬ count = 0 := by omega
    have hget : getDomainName domainStr DefaultDNSDomainNameLabels = .ok "." := by
      rcases hroot with h | h <;> subst h <;> decide
    cases verbose <;>
      (simp [MagnitudeDataset.updateStats, hget, if_neg hc] <;> omega)
  · intro ds domainStr src verbose
    simp [MagnitudeDataset.updateStats]

/-- C1 witness: a concrete application of each part. -/
theorem c1_updateStats_counts_witness :
    (getDomainName "example.com" DefaultDNSDomainNameLabels = .ok "com" ∧
      ((newDataset (some ⟨2025, 1, 1, 0⟩)).updateStats "example.com" interopV4 3
        false).1.allQueriesCount = 3) ∧
    ((newDataset (some ⟨2025, 1, 1, 0⟩)).updateStats "." interopV4 2 false).1.domains = [] ∧
    (newDataset (some ⟨2025, 1, 1, 0⟩)).updateStats "net" interopV6 0 true =
      (newDataset (some ⟨2025, 1, 1, 0⟩), none) := by
  refine ⟨⟨by decide, ?_⟩, ?_, ?_⟩
  · have h := (c1_updateStats_counts.1 (newDataset (some ⟨2025, 1, 1, 0⟩)) "example.com"
      interopV4 3 false "com" (by decide) (by decide) (by decide) (by decide) (by decide))
    simpa using h.2.1
  · have h := (c1_updateStats_counts.2.1 (newDataset (some ⟨2025, 1, 1, 0⟩)) "."
      interopV4 2 false (Or.inr rfl) (by decide) (by decide))
    simpa using h.2.2
  · exact c1_updateStats_counts.2.2 (newDataset (some ⟨2025, 1, 1, 0⟩)) "net" interopV6 true

/-! ### C10: updateStats is not atomic on invalid domains -/

/-- C10: with `queryCount > 0` and a domain whose final label fails the TLD
grammar, `updateStats` returns an error, but the global query count has
already been increased by `queryCount` and the client's hash has already
been added to the global estimator, while the domain map is untouched. -/
theorem c10_updateStats_invalid_domain_counts_globally
    (ds : MagnitudeDataset) (domainStr : String) (src : IPAddress)
    (count : Nat) (verbose : Bool) (e : String)
    (hget : getDomainName domainStr DefaultDNSDomainNameLabels = .error e)
    (hpos : 0 < count) (hov : ds.allQueriesCount + count < 2 ^ 64) :
    (ds.updateStats domainStr src count verbose).2 =
      some ("invalid domain name: " ++ e) ∧
    (ds.updateStats domainStr src count verbose).1.allQueriesCount =
      ds.allQueriesCount + count ∧
    (ds.updateStats domainStr src count verbose).1.allClientsHll =
      ds.allClientsHll.addRaw src.hash ∧
    (ds.updateStats domainStr src count verbose).1.domains = ds.domains := by
  have hc : ¬ count = 0 := by omega
  cases verbose <;>
    (simp [MagnitudeDataset.updateStats, hget, if_neg hc] <;> omega)

/-- C10 witness: the record `("bad_domain!", v4 vector, 5)` errors while
adding 5 to the global query count. -/
theorem c10_updateStats_invalid_domain_counts_globally_witness :
    getDomainName "bad_domain!" DefaultDNSDomainNameLabels =
      .error "invalid domain name: bad_domain! does not match required pattern" ∧
    ((newDataset (some ⟨2025, 1, 1, 0⟩)).updateStats "bad_domain!" interopV4 5
      false).1.allQueriesCount = 5 ∧
    ((newDataset (some ⟨2025, 1, 1, 0⟩)).updateStats "bad_domain!" interopV4 5
      false).1.domains = [] := by
  refine ⟨by decide, ?_, ?_⟩
  · have h := c10_updateStats_invalid_domain_counts_globally
      (newDataset (some ⟨2025, 1, 1, 0⟩)) "bad_domain!" interopV4 5 false
      "invalid domain name: bad_domain! does not match required pattern"
      (by decide) (by decide) (by decide)
    simpa using h.2.1
  · have h := c10_updateStats_invalid_domain_counts_globally
      (newDataset (some ⟨2025, 1, 1, 0⟩)) "bad_domain!" interopV4 5 false
      "invalid domain name: bad_domain! does not match required pattern"
      (by decide) (by decide) (by decide)
    exact h.2.2.2

/-! ### Except-monad fold helpers -/

theorem except_foldlM_ok_preserve {α β : Type} {P : β → Prop} (f : β → α → Except String β)
    (hf : ∀ b a b', f b a = .ok b' → P b → P b') :
    ∀ (l : List α) (b b' : β), List.foldlM f b l = .ok b' → P b → P b' := by
  intro l
  induction l with
  | nil =>
    intro b b' h hp
    simp only [List.foldlM_nil] at h
    cases h
    exact hp
  | cons a l ih =>
    intro b b' h hp
    simp only [List.foldlM_cons] at h
    cases hfa : f b a with
    | error e => rw [hfa] at h; simp [Bind.bind, Except.bind] at h
    | ok b1 =>
      rw [hfa] at h
      simp only [Bind.bind, Except.bind] at h
      exact ih b1 b' h (hf b a b1 hfa hp)

theorem except_foldlM_ok_total {α β : Type} {P : β → Prop} {Q : α → Prop}
    (f : β → α → Except String β)
    (hf : ∀ b a, P b → Q a → ∃ b', f b a = .ok b' ∧ P b') :
    ∀ (l : List α) (b : β), P b → (∀ a ∈ l, Q a) →
      ∃ b', List.foldlM f b l = .ok b' ∧ P b' := by
  intro l
  induction l with
  | nil =>
    intro b hp _
    exact ⟨b, by simp only [List.foldlM_nil]; rfl, hp⟩
  | cons a l ih =>
    intro b hp hq
    obtain ⟨b1, hb1, hp1⟩ := hf b a hp (hq a (List.mem_cons_self _ _))
    obtain ⟨b', hb', hp'⟩ := ih b1 hp1 (fun x hx => hq x (List.mem_cons_of_mem _ hx))
    exact ⟨b', by simp only [List.foldlM_cons, hb1, Bind.bind, Except.bind]; exact hb', hp'⟩

/-! ### Consistency-check characterisation -/

theorem checkConsistency_ok_iff (d0 : MagnitudeDataset) (l : List MagnitudeDataset) :
    checkConsistency d0 l = .ok () ↔
      ∀ d ∈ l, d.version = d0.version ∧ d.dateString = d0.dateString := by
  induction l with
  | nil => simp [checkConsistency]
  | cons d rest ih =>
    by_cases hv : d.version = d0.version
    · by_cases hd : d.dateString = d0.dateString
      · simp [checkConsistency, hv, hd, ih]
      · simp [checkConsistency, hv, hd]
    · simp [checkConsistency, hv]

/-- The check loop reports the first offending input, version before date. -/
theorem checkConsistency_first_error (d0 : MagnitudeDataset)
    (pre : List MagnitudeDataset) (d : MagnitudeDataset) (post : List MagnitudeDataset)
    (hpre : ∀ x ∈ pre, x.version = d0.version ∧ x.dateString = d0.dateString)
    (hbad : d.version ≠ d0.version ∨ d.dateString ≠ d0.dateString) :
    checkConsistency d0 (pre ++ d :: post) =
      .error (if d.version ≠ d0.version then versionMismatchMsg d d0
              else dateMismatchMsg d d0) := by
  induction pre with
  | nil =>
    by_cases hv : d.version = d0.version
    · have hd : d.dateString ≠ d0.dateString := by tauto
      simp [checkConsistency, hv, hd]
    · simp [checkConsistency, hv]
  | cons x pre ih =>
    have hx := hpre x (List.mem_cons_self _ _)
    simpa [checkConsistency, hx.1, hx.2] using
      ih (fun y hy => hpre y (List.mem_cons_of_mem _ hy))

theorem aggGlobalHll_fields {r d r' : MagnitudeDataset} (h : aggGlobalHll r d = .ok r') :
    r'.version = r.version ∧ r'.date = r.date := by
  rw [aggGlobalHll] at h
  cases hu : r.allClientsHll.strictUnion d.allClientsHll with
  | error e => rw [hu] at h; exact absurd h (by simp)
  | ok hh => rw [hu] at h; cases h; exact ⟨rfl, rfl⟩

theorem foldl_aggExtras_fields (l : List MagnitudeDataset) :
    ∀ r, (List.foldl aggExtras r l).version = r.version ∧
      (List.foldl aggExtras r l).date = r.date := by
  induction l with
  | nil => intro r; exact ⟨rfl, rfl⟩
  | cons x xs ih => intro r; simpa using ih (aggExtras r x)

theorem aggDomain_fields {c : MagnitudeDataset} {p : String × DomainData}
    {c' : MagnitudeDataset} (h : aggDomain c p = .ok c') :
    c'.version = c.version ∧ c'.date = c.date := by
  rw [aggDomain] at h
  split at h
  · exact absurd h (by simp)
  · cases h; exact ⟨rfl, rfl⟩

theorem aggDomains_fields {r d r' : MagnitudeDataset} (h : aggDomains r d = .ok r') :
    r'.version = r.version ∧ r'.date = r.date := by
  rw [aggDomains] at h
  have := except_foldlM_ok_preserve aggDomain
    (P := fun c => c.version = r.version ∧ c.date = r.date)
    (fun b a b' hf hp => by
      obtain ⟨h1, h2⟩ := aggDomain_fields hf
      exact ⟨h1.trans hp.1, h2.trans hp.2⟩)
    _ _ _ h ⟨rfl, rfl⟩
  exact this

/-- `version`/`date` invariant of the running result through the
aggregation pipeline. -/
theorem aggregate_version_date {datasets : List MagnitudeDataset}
    {d0 : MagnitudeDataset} {rest : List MagnitudeDataset} {res : MagnitudeDataset}
    (hds : datasets = d0 :: rest)
    (hok : AggregateDatasets datasets = .ok res) :
    res.version = 1 ∧ res.date = dateOnly d0.date ∧
      ∀ d ∈ datasets, d.version = d0.version ∧ d.dateString = d0.dateString := by
  subst hds
  cases rest with
  | nil => exact absurd hok (by simp [AggregateDatasets])
  | cons d1 rest' =>
    simp only [AggregateDatasets] at hok
    cases hcc : checkConsistency d0 (d0 :: d1 :: rest') with
    | error e =>
      rw [hcc] at hok
      exact absurd hok (by simp [Bind.bind, Except.bind])
    | ok u =>
      obtain ⟨⟩ := u
      rw [hcc] at hok
      simp only [Bind.bind, Except.bind] at hok
      refine ⟨?_, ?_, (checkConsistency_ok_iff d0 _).mp hcc⟩ <;>
      · have hbase : (newDataset (some d0.date)).version = 1 ∧
            (newDataset (some d0.date)).date = dateOnly d0.date := ⟨rfl, rfl⟩
        cases hg : List.foldlM aggGlobalHll (newDataset (some d0.date))
            (d0 :: d1 :: rest') with
        | error e => rw [hg] at hok; exact absurd hok (by simp)
        | ok r1 =>
          rw [hg] at hok
          simp only at hok
          have hr1 : r1.version = 1 ∧ r1.date = dateOnly d0.date := by
            refine except_foldlM_ok_preserve
              (P := fun r => r.version = 1 ∧ r.date = dateOnly d0.date)
              aggGlobalHll ?_ _ _ _ hg hbase
            intro b a b' hf hp
            obtain ⟨h1, h2⟩ := aggGlobalHll_fields hf
            exact ⟨h1.trans hp.1, h2.trans hp.2⟩
          have hr2 := foldl_aggExtras_fields (d0 :: d1 :: rest') r1
          cases hd : List.foldlM aggDomains
              (List.foldl aggExtras r1 (d0 :: d1 :: rest')) (d0 :: d1 :: rest') with
          | error e => rw [hd] at hok; exact absurd hok (by simp)
          | ok r3 =>
            rw [hd] at hok
            simp only at hok
            have hr3 : r3.version = 1 ∧ r3.date = dateOnly d0.date := by
              refine except_foldlM_ok_preserve
                (P := fun r => r.version = 1 ∧ r.date = dateOnly d0.date)
                aggDomains ?_ _ _ _ hd
                ⟨hr2.1.trans hr1.1, hr2.2.trans hr1.2⟩
              intro b a b' hf hp
              obtain ⟨h1, h2⟩ := aggDomains_fields hf
              exact ⟨h1.trans hp.1, h2.trans hp.2⟩
            cases hok
            first
            | exact hr3.1
            | exact hr3.2

/-- C4 counterexample: merging two datasets that both carry version 2 (and
equal dates) succeeds, but the result has version 1, not 2 — `newDataset`
stamps the constant current format version instead of propagating the
inputs' shared version. -/
theorem c4_version_counterexample :
    c4ds.version = 2 ∧
    (AggregateDatasets [c4ds, c4ds]).map MagnitudeDataset.version = .ok 1 := by
  constructor
  · rfl
  · decide

/-- C4 (amended): a successful merge of datasets sharing version `v` and
date `d` validates those fields equal across the inputs and gives the
result the shared date (from the first input, day-truncated); the result's
version is the constant current format version 1 — which equals `v`
exactly when `v = 1` — rather than being copied from the inputs. -/
theorem c4_merge_version_date (datasets : List MagnitudeDataset)
    (d0 : MagnitudeDataset) (res : MagnitudeDataset)
    (hhead : datasets.head? = some d0)
    (hok : AggregateDatasets datasets = .ok res) :
    res.version = 1 ∧ (d0.version = 1 → res.version = d0.version) ∧
      res.date = dateOnly d0.date ∧ res.dateString = d0.dateString ∧
      ∀ d ∈ datasets, d.version = d0.version ∧ d.dateString = d0.dateString := by
  cases datasets with
  | nil => simp at hhead
  | cons x rest =>
    have hx : x = d0 := by simpa using hhead
    subst hx
    obtain ⟨h1, h2, h3⟩ := aggregate_version_date rfl hok
    refine ⟨h1, fun hv => by rw [h1, hv], h2, ?_, h3⟩
    rw [MagnitudeDataset.dateString, h2]
    rfl

/-- C4 witness: merging two fresh datasets (version 1, date 2025-01-01)
yields version 1 and the shared date. -/
theorem c4_merge_version_date_witness :
    (AggregateDatasets [newDataset (some ⟨2025, 1, 1, 0⟩), newDataset (some ⟨2025, 1, 1, 0⟩)]).map
      (fun r => (r.version, r.dateString)) = .ok (1, "2025-01-01") := by
  cases hok : AggregateDatasets [newDataset (some ⟨2025, 1, 1, 0⟩), newDataset (some ⟨2025, 1, 1, 0⟩)] with
  | error e =>
    have hisOk : exceptIsOk (AggregateDatasets [newDataset (some ⟨2025, 1, 1, 0⟩),
        newDataset (some ⟨2025, 1, 1, 0⟩)]) = true := by decide
    rw [hok] at hisOk
    exact absurd hisOk (by simp [exceptIsOk])
  | ok res =>
    have h := c4_merge_version_date
      [newDataset (some ⟨2025, 1, 1, 0⟩), newDataset (some ⟨2025, 1, 1, 0⟩)]
      (newDataset (some ⟨2025, 1, 1, 0⟩)) res rfl hok
    have hds : res.dateString = "2025-01-01" := by
      rw [h.2.2.2.1]; decide
    show Except.ok (res.version, res.dateString) = Except.ok (1, "2025-01-01")
    rw [h.1, hds]

/-! ### C3: when aggregation fails -/

theorem mem_alistInsert {α : Type} {q : String × α} {k : String} {v : α}
    {m : List (String × α)} (h : q ∈ alistInsert k v m) : q = (k, v) ∨ q ∈ m := by
  induction m with
  | nil => simpa [alistInsert] using h
  | cons p rest ih =>
    obtain ⟨k', v'⟩ := p
    by_cases hk : k = k'
    · simp only [alistInsert, if_pos hk] at h
      rcases List.mem_cons.mp h with h' | h'
      · left; exact h'
      · right; exact List.mem_cons_of_mem _ h'
    · simp only [alistInsert, if_neg hk] at h
      rcases List.mem_cons.mp h with h' | h'
      · right; exact h' ▸ List.mem_cons_self _ _
      · rcases ih h' with h'' | h''
        · left; exact h''
        · right; exact List.mem_cons_of_mem _ h''

theorem aggGlobalHll_total {b a : MagnitudeDataset}
    (hb : dsDefaultSettings b) (ha : dsDefaultSettings a) :
    ∃ b', aggGlobalHll b a = .ok b' ∧ dsDefaultSettings b' := by
  refine ⟨{ b with allClientsHll :=
    { b.allClientsHll with regs := regMerge b.allClientsHll.regs a.allClientsHll.regs } }, ?_, ?_⟩
  · rw [aggGlobalHll, Hll.strictUnion, if_pos (hb.1.trans ha.1.symm)]
  · exact ⟨hb.1, hb.2⟩

theorem aggExtras_defaultSettings {b a : MagnitudeDataset} (hb : dsDefaultSettings b) :
    dsDefaultSettings (aggExtras b a) := hb

theorem foldl_aggExtras_defaultSettings (l : List MagnitudeDataset) :
    ∀ b, dsDefaultSettings b → dsDefaultSettings (List.foldl aggExtras b l) := by
  induction l with
  | nil => intro b hb; exact hb
  | cons x xs ih => intro b hb; exact ih _ (aggExtras_defaultSettings hb)

theorem alistLookup_mem {α : Type} {k : String} {v : α} {m : List (String × α)}
    (h : alistLookup k m = some v) : (k, v) ∈ m := by
  induction m with
  | nil => simp [alistLookup] at h
  | cons p rest ih =>
    obtain ⟨k', v'⟩ := p
    by_cases hk : k = k'
    · simp only [alistLookup, if_pos hk, Option.some.injEq] at h
      exact List.mem_cons.mpr (Or.inl (by rw [hk, h]))
    · simp only [alistLookup, if_neg hk] at h
      exact List.mem_cons.mpr (Or.inr (ih h))

/-- `StrictUnion` under equal configurations. -/
theorem strictUnion_ok {h o : Hll} (he : h.settings = o.settings) :
    h.strictUnion o = .ok ⟨h.settings, regMerge h.regs o.regs⟩ := by
  rw [Hll.strictUnion, if_pos he]

theorem aggDomain_total {c : MagnitudeDataset} {p : String × DomainData}
    (hc : dsDefaultSettings c) (hp : p.2.hll.settings = defaultSettings) :
    ∃ c', aggDomain c p = .ok c' ∧ dsDefaultSettings c' := by
  have hthis : ((alistLookup p.1 c.domains).getD newDomain).hll.settings = defaultSettings := by
    cases hl : alistLookup p.1 c.domains with
    | none => rfl
    | some dd => exact hc.2 (p.1, dd) (alistLookup_mem hl)
  have he : ({ (alistLookup p.1 c.domains).getD newDomain with
      queriesCount := (((alistLookup p.1 c.domains).getD newDomain).queriesCount
        + p.2.queriesCount) % 2 ^ 64 } : DomainData).hll.settings = p.2.hll.settings :=
    hthis.trans hp.symm
  simp only [aggDomain, strictUnion_ok he]
  refine ⟨_, rfl, hc.1, ?_⟩
  intro q hq
  rcases mem_alistInsert hq with h | h
  · rw [h]
    exact hthis
  · exact hc.2 q h

theorem aggDomains_total {b a : MagnitudeDataset}
    (hb : dsDefaultSettings b) (ha : dsDefaultSettings a) :
    ∃ b', aggDomains b a = .ok b' ∧ dsDefaultSettings b' := by
  rw [aggDomains]
  exact except_foldlM_ok_total (P := dsDefaultSettings)
    (Q := fun p => p.2.hll.settings = defaultSettings) aggDomain
    (fun c p hc hp => aggDomain_total hc hp) a.domains _ hb ha.2

/-- Aggregation succeeds whenever the versions and dates all match and
every estimator carries the production configuration. -/
theorem aggregate_total (d0 : MagnitudeDataset) (rest : List MagnitudeDataset)
    (hne : rest ≠ [])
    (hmatch : ∀ d ∈ d0 :: rest, d.version = d0.version ∧ d.dateString = d0.dateString)
    (hdef : ∀ d ∈ d0 :: rest, dsDefaultSettings d) :
    ∃ res, AggregateDatasets (d0 :: rest) = .ok res := by
  cases rest with
  | nil => exact absurd rfl hne
  | cons d1 rest' =>
    have hcc : checkConsistency d0 (d0 :: d1 :: rest') = .ok () :=
      (checkConsistency_ok_iff d0 _).mpr hmatch
    have hbase : dsDefaultSettings (newDataset (some d0.date)) :=
      ⟨rfl, by intro p hp; simp [newDataset, MagnitudeDataset.setDate] at hp⟩
    obtain ⟨r1, hg, hP1⟩ := except_foldlM_ok_total (P := dsDefaultSettings)
      (Q := dsDefaultSettings) aggGlobalHll
      (fun b a hb ha => aggGlobalHll_total hb ha)
      (d0 :: d1 :: rest') (newDataset (some d0.date)) hbase hdef
    have hP2 := foldl_aggExtras_defaultSettings (d0 :: d1 :: rest') r1 hP1
    obtain ⟨r3, hd, hP3⟩ := except_foldlM_ok_total (P := dsDefaultSettings)
      (Q := dsDefaultSettings) aggDomains
      (fun b a hb ha => aggDomains_total hb ha)
      (d0 :: d1 :: rest') (List.foldl aggExtras r1 (d0 :: d1 :: rest')) hP2 hdef
    refine ⟨r3.finaliseStats, ?_⟩
    simp only [AggregateDatasets, hcc, Bind.bind, Except.bind, hg, hd]

/-- C3 counterexample: two inputs with identical version and date still
make `AggregateDatasets` fail (estimator-incompatibility during union),
so "error iff version or date differs from the first input's" is false. -/
theorem c3_error_iff_counterexample :
    (∀ d ∈ [c3ds, c3ds], d.version = c3ds.version ∧ d.dateString = c3ds.dateString) ∧
    exceptIsOk (AggregateDatasets [c3ds, c3ds]) = false := by
  constructor
  · decide
  · decide

/-- C3 (amended): `AggregateDatasets` errors on fewer than two inputs; a
version or date mismatch against the first input aborts with the first
offending input's error, version checked before date, the message naming
the offending input and the expected value (both dates for a date
mismatch); two same-version different-date datasets fail with exactly the
date-mismatch error naming both dates; and when every input matches the
first's version and date **and** every estimator uses the production
configuration, the merge succeeds — an estimator-incompatibility (and
nothing else) can still fail a merge of version/date-consistent inputs. -/
theorem c3_aggregate_error_conditions :
    (∀ datasets : List MagnitudeDataset, datasets.length < 2 →
      AggregateDatasets datasets = .error "no datasets to aggregate") ∧
    (∀ (d0 : MagnitudeDataset) (rest : List MagnitudeDataset) (e : String), rest ≠ [] →
      checkConsistency d0 (d0 :: rest) = .error e →
      AggregateDatasets (d0 :: rest) = .error e) ∧
    (∀ (d0 : MagnitudeDataset) (pre : List MagnitudeDataset) (d : MagnitudeDataset)
        (post : List MagnitudeDataset),
      (∀ x ∈ pre, x.version = d0.version ∧ x.dateString = d0.dateString) →
      (d.version ≠ d0.version ∨ d.dateString ≠ d0.dateString) →
      checkConsistency d0 (pre ++ d :: post) =
        .error (if d.version ≠ d0.version then versionMismatchMsg d d0
                else dateMismatchMsg d d0)) ∧
    (∀ d0 d1 : MagnitudeDataset, d1.version = d0.version →
      d1.dateString ≠ d0.dateString →
      AggregateDatasets [d0, d1] = .error (dateMismatchMsg d1 d0)) ∧
    (∀ (d0 : MagnitudeDataset) (rest : List MagnitudeDataset), rest ≠ [] →
      (∀ d ∈ d0 :: rest, d.version = d0.version ∧ d.dateString = d0.dateString) →
      (∀ d ∈ d0 :: rest, dsDefaultSettings d) →
      ∃ res, AggregateDatasets (d0 :: rest) = .ok res) := by
  refine ⟨?_, ?_, ?_, ?_, aggregate_total⟩
  · intro datasets hlen
    match datasets with
    | [] => rfl
    | [_] => rfl
    | _ :: _ :: _ =>
      exfalso
      simp only [List.length_cons] at hlen
      omega
  · intro d0 rest e hne hcc
    cases rest with
    | nil => exact absurd rfl hne
    | cons d1 rest' =>
      simp only [AggregateDatasets, hcc, Bind.bind, Except.bind]
  · exact checkConsistency_first_error
  · intro d0 d1 hv hd
    have hcc : checkConsistency d0 [d0, d1] = .error (dateMismatchMsg d1 d0) := by
      have h := checkConsistency_first_error d0 [d0] d1 []
        (by intro x hx; simp at hx; subst hx; exact ⟨rfl, rfl⟩) (Or.inr hd)
      rw [if_neg (by simpa using hv)] at h
      exact h
    simp only [AggregateDatasets, hcc, Bind.bind, Except.bind]

/-- C3 witness: concrete applications — the empty input errs, and two
fresh datasets dated a day apart fail with the error naming both dates. -/
theorem c3_aggregate_error_conditions_witness :
    AggregateDatasets ([] : List MagnitudeDataset) = .error "no datasets to aggregate" ∧
    AggregateDatasets [newDataset (some ⟨2025, 1, 1, 0⟩), newDataset (some ⟨2025, 1, 2, 0⟩)] =
      .error "date mismatch: dataset  has date 2025-01-02, expected 2025-01-01" := by
  constructor
  · exact c3_aggregate_error_conditions.1 [] (by decide)
  · have h := c3_aggregate_error_conditions.2.2.2.1 (newDataset (some ⟨2025, 1, 1, 0⟩))
      (newDataset (some ⟨2025, 1, 2, 0⟩)) rfl (by decide)
    rw [h]
    rfl

/-! ### C2: merging a dataset with itself -/

theorem alistLookup_append_not_mem {α : Type} {k : String} {l1 : List (String × α)}
    (h : k ∉ l1.map Prod.fst) (l2 : List (String × α)) :
    alistLookup k (l1 ++ l2) = alistLookup k l2 := by
  induction l1 with
  | nil => rfl
  | cons p rest ih =>
    have hk : k ≠ p.1 := by simp at h; exact fun he => h.1 (by rw [he])
    obtain ⟨k', v'⟩ := p
    simp only [List.cons_append, alistLookup, if_neg hk]
    exact ih (by simp at h ⊢; exact h.2)

theorem alistLookup_not_mem {α : Type} {k : String} {l : List (String × α)}
    (h : k ∉ l.map Prod.fst) : alistLookup k l = none := by
  have := alistLookup_append_not_mem h ([] : List (String × α))
  simpa using this

theorem alistInsert_append_fresh {α : Type} {k : String} {l : List (String × α)}
    (h : k ∉ l.map Prod.fst) (v : α) : alistInsert k v l = l ++ [(k, v)] := by
  induction l with
  | nil => rfl
  | cons p rest ih =>
    have hk : k ≠ p.1 := by simp at h; exact fun he => h.1 (by rw [he])
    obtain ⟨k', v'⟩ := p
    simp only [alistInsert, if_neg hk, List.cons_append, List.cons.injEq, true_and]
    exact ih (by simp at h ⊢; exact h.2)

theorem alistInsert_append_mid {α : Type} {k : String} {l1 : List (String × α)}
    (h : k ∉ l1.map Prod.fst) (v w : α) (l2 : List (String × α)) :
    alistInsert k v (l1 ++ (k, w) :: l2) = l1 ++ (k, v) :: l2 := by
  induction l1 with
  | nil => simp [alistInsert]
  | cons p rest ih =>
    have hk : k ≠ p.1 := by simp at h; exact fun he => h.1 (by rw [he])
    obtain ⟨k', v'⟩ := p
    simp only [List.cons_append, alistInsert, if_neg hk, List.cons.injEq, true_and]
    exact ih (by simp at h ⊢; exact h.2)

theorem mem_foldl_setInsert {α : Type} [DecidableEq α] (l : List α) :
    ∀ (acc : List α) (x : α), x ∈ acc ∨ x ∈ l →
      x ∈ List.foldl (fun a c => setInsert c a) acc l := by
  induction l with
  | nil => intro acc x hx; rcases hx with h | h; exact h; simp at h
  | cons y ys ih =>
    intro acc x hx
    simp only [List.foldl_cons]
    have hkeep : ∀ z : α, z ∈ acc → z ∈ setInsert y acc := by
      intro z hz
      unfold setInsert
      split
      · exact hz
      · exact List.mem_append_left _ hz
    have hself : y ∈ setInsert y acc := by
      unfold setInsert
      split
      · assumption
      · exact List.mem_append_right _ (List.mem_singleton.mpr rfl)
    rcases hx with h | h
    · exact ih _ x (Or.inl (hkeep x h))
    · rcases List.mem_cons.mp h with h' | h'
      · subst h'
        exact ih _ x (Or.inl hself)
      · exact ih _ x (Or.inr h')

theorem foldl_setInsert_id {α : Type} [DecidableEq α] {l acc : List α}
    (h : ∀ x ∈ l, x ∈ acc) : List.foldl (fun a c => setInsert c a) acc l = acc := by
  induction l with
  | nil => rfl
  | cons y ys ih =>
    simp only [List.foldl_cons, setInsert, if_pos (h y (List.mem_cons_self _ _))]
    exact ih (fun x hx => h x (List.mem_cons_of_mem _ hx))

theorem map_fst_selfT (k : Nat) (l : List (String × DomainData)) :
    (l.map (selfT k)).map Prod.fst = l.map Prod.fst := by
  rw [List.map_map]; rfl

/-- First aggregation pass over a dataset's domains, starting from a result
whose processed initial segment is already in place. -/
theorem c2_first_pass :
    ∀ (todo pre : List (String × DomainData)) (r : MagnitudeDataset),
      ((pre ++ todo).map Prod.fst).Nodup →
      (∀ p ∈ todo, p.2.hll.settings = defaultSettings ∧ regSorted p.2.hll.regs ∧
        p.2.queriesCount < 2 ^ 64) →
      r.domains = pre.map (selfT 1) →
      List.foldlM aggDomain r todo =
        .ok { r with domains := ((pre ++ todo).map (selfT 1)) } := by
  intro todo
  induction todo with
  | nil =>
    intro pre r hnd hcond hdom
    simp only [List.foldlM_nil, List.append_nil]
    rw [← hdom]
    rfl
  | cons p todo' ih =>
    intro pre r hnd hcond hdom
    have hfst : p.1 ∉ pre.map Prod.fst := by
      rw [List.map_append, List.nodup_append] at hnd
      intro hx
      exact hnd.2.2 hx (by simp)
    have hs := hcond p (List.mem_cons_self _ _)
    have hlook : alistLookup p.1 r.domains = none := by
      rw [hdom]
      exact alistLookup_not_mem (by rw [map_fst_selfT]; exact hfst)
    have hmerge : regMerge ([] : List (Nat × Nat)) p.2.hll.regs = p.2.hll.regs :=
      regMerge_nil _ hs.2.1
    have hu : ({ settings := defaultSettings, regs := [] } : Hll).strictUnion p.2.hll =
        .ok { settings := defaultSettings, regs := p.2.hll.regs } := by
      rw [strictUnion_ok (by exact hs.1.symm), hmerge]
    have hstep : aggDomain r p =
        .ok { r with domains := (pre ++ [p]).map (selfT 1) } := by
      simp only [aggDomain, hlook, Option.getD_none, newDomain, emptyHll,
        Nat.zero_add, Nat.mod_eq_of_lt hs.2.2, hu]
      rw [hdom, alistInsert_append_fresh (by rw [map_fst_selfT]; exact hfst)]
      rw [List.map_append]
      simp [selfT, selfExtras]
    rw [List.foldlM_cons, hstep]
    simp only [Bind.bind, Except.bind]
    have hra : (((pre ++ [p]) ++ todo').map Prod.fst).Nodup := by
      rw [List.append_assoc]
      simpa using hnd
    have hrec := ih (pre ++ [p]) { r with domains := (pre ++ [p]).map (selfT 1) } hra
      (fun q hq => hcond q (List.mem_cons_of_mem _ hq)) rfl
    rw [hrec, List.append_assoc]
    rfl

/-- Later aggregation passes: every unprocessed domain still carries the
`k`-fold state, and one more pass lifts it to `k + 1`. -/
theorem c2_later_pass (k : Nat) :
    ∀ (todo pre : List (String × DomainData)) (r : MagnitudeDataset),
      ((pre ++ todo).map Prod.fst).Nodup →
      (∀ p ∈ todo, p.2.hll.settings = defaultSettings ∧ regSorted p.2.hll.regs ∧
        (k + 1) * p.2.queriesCount < 2 ^ 64) →
      r.domains = pre.map (selfT (k + 1)) ++ todo.map (selfT k) →
      List.foldlM aggDomain r todo =
        .ok { r with domains := ((pre ++ todo).map (selfT (k + 1))) } := by
  intro todo
  induction todo with
  | nil =>
    intro pre r hnd hcond hdom
    simp only [List.map_nil, List.append_nil] at hdom
    simp only [List.foldlM_nil, List.append_nil]
    rw [← hdom]
    rfl
  | cons p todo' ih =>
    intro pre r hnd hcond hdom
    have hfst : p.1 ∉ pre.map Prod.fst := by
      rw [List.map_append, List.nodup_append] at hnd
      intro hx
      exact hnd.2.2 hx (by simp)
    have hs := hcond p (List.mem_cons_self _ _)
    have hlook : alistLookup p.1 r.domains = some (selfT k p).2 := by
      rw [hdom, alistLookup_append_not_mem (by rw [map_fst_selfT]; exact hfst)]
      simp [List.map_cons, selfT, alistLookup]
    have hmerge : regMerge p.2.hll.regs p.2.hll.regs = p.2.hll.regs :=
      regMerge_self hs.2.1
    have hu : ({ settings := defaultSettings, regs := p.2.hll.regs } : Hll).strictUnion
        p.2.hll = .ok { settings := defaultSettings, regs := p.2.hll.regs } := by
      rw [strictUnion_ok (by exact hs.1.symm), hmerge]
    have hsum : k * p.2.queriesCount + p.2.queriesCount = (k + 1) * p.2.queriesCount := by
      ring
    have hmod : (k * p.2.queriesCount + p.2.queriesCount) % 2 ^ 64 =
        (k + 1) * p.2.queriesCount := by
      rw [hsum]
      exact Nat.mod_eq_of_lt hs.2.2
    have hext : p.2.extraAllClients.foldl (fun l c => setInsert c l) (selfExtras p.2) =
        selfExtras p.2 :=
      foldl_setInsert_id (fun x hx => mem_foldl_setInsert _ _ _ (Or.inr hx))
    have hstep : aggDomain r p =
        .ok { r with domains := (pre ++ [p]).map (selfT (k + 1)) ++ todo'.map (selfT k) } := by
      simp only [aggDomain, hlook, Option.getD_some, selfT, hmod, hext, hu]
      rw [hdom]
      rw [show (List.map (selfT k) (p :: todo') : List (String × DomainData)) =
        (p.1, (selfT k p).2) :: List.map (selfT k) todo' from rfl]
      rw [alistInsert_append_mid (by rw [map_fst_selfT]; exact hfst)]
      rw [List.map_append]
      simp [selfT, selfExtras, List.append_assoc]
    rw [List.foldlM_cons, hstep]
    simp only [Bind.bind, Except.bind]
    have hra : (((pre ++ [p]) ++ todo').map Prod.fst).Nodup := by
      rw [List.append_assoc]
      simpa using hnd
    have hrec := ih (pre ++ [p])
      { r with domains := (pre ++ [p]).map (selfT (k + 1)) ++ todo'.map (selfT k) } hra
      (fun q hq => hcond q (List.mem_cons_of_mem _ hq)) rfl
    rw [hrec, List.append_assoc]
    rfl

theorem c2_global_steady (D : MagnitudeDataset)
    (hset : D.allClientsHll.settings = defaultSettings)
    (hsort : regSorted D.allClientsHll.regs) :
    ∀ (n : Nat) (b : MagnitudeDataset),
      b.allClientsHll = { settings := defaultSettings, regs := D.allClientsHll.regs } →
      List.foldlM aggGlobalHll b (List.replicate n D) = .ok b := by
  intro n
  induction n with
  | zero => intro b _; rfl
  | succ n ih =>
    intro b hb
    rw [List.replicate_succ, List.foldlM_cons]
    have hu : ({ settings := defaultSettings, regs := D.allClientsHll.regs } : Hll).strictUnion
        D.allClientsHll = .ok { settings := defaultSettings, regs := D.allClientsHll.regs } := by
      rw [strictUnion_ok (by exact hset.symm), regMerge_self hsort]
    have hstep : aggGlobalHll b D = .ok b := by
      simp only [aggGlobalHll, hb, hu]
      rw [← hb]
    rw [hstep]
    simp only [Bind.bind, Except.bind]
    exact ih b hb

theorem c2_global_fold (D : MagnitudeDataset)
    (hset : D.allClientsHll.settings = defaultSettings)
    (hsort : regSorted D.allClientsHll.regs)
    (n : Nat) (hn : 1 ≤ n) (b : MagnitudeDataset) (hb : b.allClientsHll = emptyHll) :
    List.foldlM aggGlobalHll b (List.replicate n D) =
      .ok { b with allClientsHll :=
        { settings := defaultSettings, regs := D.allClientsHll.regs } } := by
  cases n with
  | zero => omega
  | succ n =>
    rw [List.replicate_succ, List.foldlM_cons]
    have hu : ({ settings := defaultSettings, regs := ([] : List (Nat × Nat)) } : Hll).strictUnion
        D.allClientsHll = .ok { settings := defaultSettings, regs := D.allClientsHll.regs } := by
      rw [strictUnion_ok (by exact hset.symm), regMerge_nil _ hsort]
    have hstep : aggGlobalHll b D = .ok { b with allClientsHll :=
        { settings := defaultSettings, regs := D.allClientsHll.regs } } := by
      simp only [aggGlobalHll, hb, emptyHll, hu]
    rw [hstep]
    simp only [Bind.bind, Except.bind]
    exact c2_global_steady D hset hsort n _ rfl

theorem c2_domains_steady (D : MagnitudeDataset) (N : Nat)
    (hdefD : ∀ p ∈ D.domains, p.2.hll.settings = defaultSettings)
    (hsortD : ∀ p ∈ D.domains, regSorted p.2.hll.regs)
    (hnodup : (D.domains.map Prod.fst).Nodup)
    (hovG : N * D.allQueriesCount < 2 ^ 64)
    (hovD : ∀ p ∈ D.domains, N * p.2.queriesCount < 2 ^ 64) :
    ∀ (n k : Nat) (b : MagnitudeDataset), 1 ≤ k → k + n ≤ N →
      b.domains = D.domains.map (selfT k) →
      b.allQueriesCount = k * D.allQueriesCount →
      List.foldlM aggDomains b (List.replicate n D) =
        .ok { b with allQueriesCount := (k + n) * D.allQueriesCount,
                     domains := D.domains.map (selfT (k + n)) } := by
  intro n
  induction n with
  | zero =>
    intro k b hk hkn hbd hbq
    simp only [List.replicate_zero, List.foldlM_nil, Nat.add_zero]
    rw [← hbd, ← hbq]
    rfl
  | succ n ih =>
    intro k b hk hkn hbd hbq
    rw [List.replicate_succ, List.foldlM_cons]
    have hq1 : (b.allQueriesCount + D.allQueriesCount) % 2 ^ 64 =
        (k + 1) * D.allQueriesCount := by
      rw [hbq, show k * D.allQueriesCount + D.allQueriesCount =
        (k + 1) * D.allQueriesCount from by ring]
      exact Nat.mod_eq_of_lt
        (lt_of_le_of_lt (Nat.mul_le_mul_right _ (by omega)) hovG)
    have hpass := c2_later_pass k D.domains []
      { b with allQueriesCount := (b.allQueriesCount + D.allQueriesCount) % 2 ^ 64 }
      (by simpa using hnodup)
      (fun p hp => ⟨hdefD p hp, hsortD p hp,
        lt_of_le_of_lt (Nat.mul_le_mul_right _ (by omega)) (hovD p hp)⟩)
      (by simpa using hbd)
    have hstep : aggDomains b D = .ok { b with
        allQueriesCount := (k + 1) * D.allQueriesCount,
        domains := D.domains.map (selfT (k + 1)) } := by
      rw [aggDomains, hpass]
      simp only [List.nil_append, hq1]
    rw [hstep]
    simp only [Bind.bind, Except.bind]
    have hrec := ih (k + 1) { b with
        allQueriesCount := (k + 1) * D.allQueriesCount,
        domains := D.domains.map (selfT (k + 1)) } (by omega) (by omega) rfl rfl
    rw [hrec, show k + 1 + n = k + (n + 1) from by omega]

theorem c2_domains_fold (D : MagnitudeDataset) (N : Nat)
    (hdefD : ∀ p ∈ D.domains, p.2.hll.settings = defaultSettings)
    (hsortD : ∀ p ∈ D.domains, regSorted p.2.hll.regs)
    (hnodup : (D.domains.map Prod.fst).Nodup)
    (hovG : N * D.allQueriesCount < 2 ^ 64)
    (hovD : ∀ p ∈ D.domains, N * p.2.queriesCount < 2 ^ 64)
    (n : Nat) (hn : 1 ≤ n) (hN : n ≤ N) (b : MagnitudeDataset)
    (hbd : b.domains = []) (hbq : b.allQueriesCount = 0) :
    List.foldlM aggDomains b (List.replicate n D) =
      .ok { b with allQueriesCount := n * D.allQueriesCount,
                   domains := D.domains.map (selfT n) } := by
  have hNpos : 1 ≤ N := le_trans hn hN
  have hQ : D.allQueriesCount < 2 ^ 64 :=
    lt_of_le_of_lt (le_trans (Nat.le_mul_of_pos_left _ (by omega)) (le_refl _)) hovG
  cases n with
  | zero => omega
  | succ n =>
    rw [List.replicate_succ, List.foldlM_cons]
    have hq1 : (b.allQueriesCount + D.allQueriesCount) % 2 ^ 64 =
        1 * D.allQueriesCount := by
      rw [hbq, Nat.zero_add, Nat.one_mul]
      exact Nat.mod_eq_of_lt hQ
    have hpass := c2_first_pass D.domains []
      { b with allQueriesCount := (b.allQueriesCount + D.allQueriesCount) % 2 ^ 64 }
      (by simpa using hnodup)
      (fun p hp => ⟨hdefD p hp, hsortD p hp,
        lt_of_le_of_lt (Nat.le_mul_of_pos_left _ (by omega)) (hovD p hp)⟩)
      (by simpa using hbd)
    have hstep : aggDomains b D = .ok { b with
        allQueriesCount := 1 * D.allQueriesCount,
        domains := D.domains.map (selfT 1) } := by
      rw [aggDomains, hpass]
      simp only [List.nil_append, hq1]
    rw [hstep]
    simp only [Bind.bind, Except.bind]
    have hrec := c2_domains_steady D N hdefD hsortD hnodup hovG hovD n 1
      { b with allQueriesCount := 1 * D.allQueriesCount,
               domains := D.domains.map (selfT 1) } (by omega) (by omega) rfl rfl
    rw [hrec, show 1 + n = n + 1 from by omega]

theorem foldl_aggExtras_core (l : List MagnitudeDataset) :
    ∀ r : MagnitudeDataset, (List.foldl aggExtras r l).domains = r.domains ∧
      (List.foldl aggExtras r l).allQueriesCount = r.allQueriesCount ∧
      (List.foldl aggExtras r l).allClientsHll = r.allClientsHll := by
  induction l with
  | nil => intro r; exact ⟨rfl, rfl, rfl⟩
  | cons x xs ih => intro r; simpa using ih (aggExtras r x)

theorem list_map_eq_self {α : Type} {f : α → α} :
    ∀ {l : List α}, l.map f = l → ∀ x ∈ l, f x = x := by
  intro l
  induction l with
  | nil => intro _ x hx; simp at hx
  | cons a rest ih =>
    intro h x hx
    simp only [List.map_cons, List.cons.injEq] at h
    rcases List.mem_cons.mp hx with h' | h'
    · rw [h']; exact h.1
    · exact ih h.2 x h'

theorem alistLookup_map_g {α β : Type} (g : (String × α) → β) :
    ∀ (l : List (String × α)), (l.map Prod.fst).Nodup →
      ∀ {k : String} {v : α}, (k, v) ∈ l →
        alistLookup k (l.map (fun p => (p.1, g p))) = some (g (k, v)) := by
  intro l
  induction l with
  | nil => intro _ k v hmem; simp at hmem
  | cons p rest ih =>
    intro hnd k v hmem
    obtain ⟨k', v'⟩ := p
    rw [List.map_cons, List.nodup_cons] at hnd
    rcases List.mem_cons.mp hmem with h | h
    · obtain ⟨h1, h2⟩ := Prod.mk.injEq k v k' v' ▸ h
      subst h1; subst h2
      simp [alistLookup]
    · have hk : k ≠ k' := by
        intro he
        subst he
        exact hnd.1 (List.mem_map.mpr ⟨(k, v), h, rfl⟩)
      simp only [List.map_cons, alistLookup, if_neg hk]
      exact ih hnd.2 h

/-- C2 (amended): merging `N ≥ 2` copies of a finalized production dataset
(equal version and date across the copies, trivially) succeeds; the
result's global exact query count is `N` times the original's, every
domain's query count is `N` times the original's, and the estimated
client cardinalities — global and per domain — are unchanged (the union
of an estimator with itself is itself). -/
theorem c2_self_merge (D : MagnitudeDataset) (N : Nat) (hN : 2 ≤ N)
    (hfin : D.finaliseStats = D)
    (hdef : dsDefaultSettings D)
    (hsortG : regSorted D.allClientsHll.regs)
    (hsortD : ∀ p ∈ D.domains, regSorted p.2.hll.regs)
    (hnodup : (D.domains.map Prod.fst).Nodup)
    (hovG : N * D.allQueriesCount < 2 ^ 64)
    (hovD : ∀ p ∈ D.domains, N * p.2.queriesCount < 2 ^ 64) :
    ∃ res, AggregateDatasets (List.replicate N D) = .ok res ∧
      res.allQueriesCount = N * D.allQueriesCount ∧
      res.allClientsCount = D.allClientsCount ∧
      ∀ p ∈ D.domains, ∃ dd', alistLookup p.1 res.domains = some dd' ∧
        dd'.clientsCount = p.2.clientsCount ∧
        dd'.queriesCount = N * p.2.queriesCount := by
  obtain ⟨n, rfl⟩ : ∃ n, N = n + 2 := ⟨N - 2, by omega⟩
  have hdefD : ∀ p ∈ D.domains, p.2.hll.settings = defaultSettings := hdef.2
  have hrep : List.replicate (n + 2) D = D :: D :: List.replicate n D := by
    rw [List.replicate_succ, List.replicate_succ]
  have hcc : checkConsistency D (D :: D :: List.replicate n D) = .ok () := by
    apply (checkConsistency_ok_iff _ _).mpr
    intro d hd
    have hdD : d = D := by
      rcases List.mem_cons.mp hd with h | h
      · exact h
      rcases List.mem_cons.mp h with h' | h'
      · exact h'
      · exact List.eq_of_mem_replicate h'
    rw [hdD]
    exact ⟨rfl, rfl⟩
  have hg := c2_global_fold D hdef.1 hsortG (n + 2) (by omega)
    (newDataset (some D.date)) rfl
  rw [hrep] at hg
  set R1 : MagnitudeDataset := { newDataset (some D.date) with allClientsHll :=
    { settings := defaultSettings, regs := D.allClientsHll.regs } } with hR1
  set R2 : MagnitudeDataset := List.foldl aggExtras R1 (D :: D :: List.replicate n D) with hR2
  have hcore := foldl_aggExtras_core (D :: D :: List.replicate n D) R1
  have hd := c2_domains_fold D (n + 2) hdefD hsortD hnodup hovG hovD (n + 2)
    (by omega) (le_refl _) R2 (hcore.1.trans rfl) (hcore.2.1.trans rfl)
  rw [hrep] at hd
  set R3 : MagnitudeDataset := { R2 with
    allQueriesCount := (n + 2) * D.allQueriesCount,
    domains := D.domains.map (selfT (n + 2)) } with hR3
  have hmain : AggregateDatasets (List.replicate (n + 2) D) = .ok R3.finaliseStats := by
    rw [hrep]
    simp only [AggregateDatasets, hcc, Bind.bind, Except.bind, hg, hd]
  refine ⟨R3.finaliseStats, hmain, ?_, ?_, ?_⟩
  · rfl
  · show R3.allClientsHll.cardinality = D.allClientsCount
    have h3 : R3.allClientsHll = R1.allClientsHll := hcore.2.2
    rw [h3]
    have hDfin : D.finaliseStats.allClientsCount = D.allClientsCount := by rw [hfin]
    rw [← hDfin]
    rfl
  · intro p hp
    have hmem : (p.1, (selfT (n + 2) p).2) ∈ D.domains.map (selfT (n + 2)) :=
      List.mem_map.mpr ⟨p, hp, rfl⟩
    have hlookup := alistLookup_map_g
      (fun q => ({ q.2 with clientsCount := q.2.hll.cardinality } : DomainData))
      (D.domains.map (selfT (n + 2)))
      (by rw [map_fst_selfT]; exact hnodup)
      (k := p.1) (v := (selfT (n + 2) p).2) hmem
    refine ⟨_, hlookup, ?_, ?_⟩
    · show ((selfT (n + 2) p).2.hll.cardinality) = p.2.clientsCount
      have hDfin : D.finaliseStats.domains = D.domains := by rw [hfin]
      have hpoint := list_map_eq_self hDfin p hp
      have hcc' : p.2.hll.cardinality = p.2.clientsCount := by
        have := congrArg (fun q => q.2.clientsCount) hpoint
        simpa using this
      rw [← hcc']
      rfl
    · rfl

/-- C2 counterexample: for `N = 1` the "merge" of one copy does not
succeed — `AggregateDatasets` rejects fewer than two inputs — refuting the
claim's "for every N ≥ 1". -/
theorem c2_n1_counterexample :
    c2D.finaliseStats = c2D ∧
    AggregateDatasets (List.replicate 1 c2D) = .error "no datasets to aggregate" := by
  constructor
  · decide
  · rfl

/-- C2 witness: three copies of the concrete finalized dataset. -/
theorem c2_self_merge_witness :
    c2D.finaliseStats = c2D ∧
    (∃ res, AggregateDatasets (List.replicate 3 c2D) = .ok res ∧
      res.allQueriesCount = 3 * c2D.allQueriesCount ∧
      res.allClientsCount = c2D.allClientsCount ∧
      ∀ p ∈ c2D.domains, ∃ dd', alistLookup p.1 res.domains = some dd' ∧
        dd'.clientsCount = p.2.clientsCount ∧
        dd'.queriesCount = 3 * p.2.queriesCount) :=
  ⟨by decide, c2_self_merge c2D 3 (by omega) (by decide) (by decide) (by decide)
    (by decide) (by decide) (by decide) (by decide)⟩

/-! #### C5: `Truncate` keeps the top-`N` entries of the comparator order

The comparator `magLE` (integer-quantised magnitude, ties by name) is a
total preorder, antisymmetric up to domain names; on entry lists with
distinct names it is a total order, so `SortedByMagnitude` is its unique
sorted permutation and `Truncate` keeps exactly the greatest `N` entries. -/

theorem magLE_refl (a : DomainMagnitude) : magLE a a := Or.inr ⟨rfl, le_refl _⟩

theorem magLE_total (a b : DomainMagnitude) : magLE a b ∨ magLE b a := by
  rcases lt_trichotomy (goTrunc (a.magnitude * 1000)) (goTrunc (b.magnitude * 1000)) with
    h | h | h
  · exact Or.inl (Or.inl h)
  · rcases le_total a.domain b.domain with hd | hd
    · exact Or.inl (Or.inr ⟨h, hd⟩)
    · exact Or.inr (Or.inr ⟨h.symm, hd⟩)
  · exact Or.inr (Or.inl h)

theorem magLE_trans (a b c : DomainMagnitude) : magLE a b → magLE b c → magLE a c := by
  rintro (h1 | ⟨h1, h1d⟩) (h2 | ⟨h2, h2d⟩)
  · exact Or.inl (h1.trans h2)
  · exact Or.inl (lt_of_lt_of_le h1 (le_of_eq h2))
  · exact Or.inl (lt_of_le_of_lt (le_of_eq h1) h2)
  · exact Or.inr ⟨h1.trans h2, le_trans h1d h2d⟩

theorem magLE_antisymm_name {a b : DomainMagnitude} (h1 : magLE a b) (h2 : magLE b a) :
    a.domain = b.domain := by
  rcases h1 with h1 | ⟨h1, h1d⟩ <;> rcases h2 with h2 | ⟨h2, h2d⟩
  · exact absurd (h1.trans h2) (lt_irrefl _)
  · exact absurd h1 (by rw [h2]; exact lt_irrefl _)
  · exact absurd h2 (by rw [h1]; exact lt_irrefl _)
  · exact le_antisymm h1d h2d

/-- `SortedByMagnitude` is sorted under the comparator. -/
theorem sortedByMagnitude_sorted (ds : MagnitudeDataset) :
    List.Sorted magLE ds.SortedByMagnitude :=
  @List.sorted_insertionSort DomainMagnitude magLE (fun a b => Classical.propDecidable _)
    ⟨magLE_total⟩ ⟨magLE_trans⟩ ds.magEntries

/-- `SortedByMagnitude` is a permutation of the ranking entries. -/
theorem sortedByMagnitude_perm (ds : MagnitudeDataset) :
    ds.SortedByMagnitude.Perm ds.magEntries :=
  @List.perm_insertionSort DomainMagnitude magLE (fun a b => Classical.propDecidable _)
    ds.magEntries

/-- The ranking entries carry exactly the map's domain names, in order. -/
theorem magEntries_domains (ds : MagnitudeDataset) :
    ds.magEntries.map (fun dm => dm.domain) = ds.domains.map Prod.fst := by
  simp [MagnitudeDataset.magEntries, List.map_map, Function.comp]

/-- Rebuilding a map from ranking entries with fresh, distinct names
appends them pairwise. -/
theorem foldl_alistInsert_entries (l : List DomainMagnitude) :
    ∀ acc : List (String × DomainData),
      (acc.map Prod.fst ++ l.map (fun dm => dm.domain)).Nodup →
      l.foldl (fun m dm => alistInsert dm.domain dm.domainHll m) acc =
        acc ++ l.map (fun dm => (dm.domain, dm.domainHll)) := by
  induction l with
  | nil => intro acc _; simp
  | cons dm rest ih =>
    intro acc h
    have h' := h
    rw [List.map_cons, List.nodup_append] at h'
    have hfresh : dm.domain ∉ acc.map Prod.fst := fun hmem => h'.2.2 hmem (by simp)
    simp only [List.foldl_cons]
    rw [alistInsert_append_fresh hfresh]
    have hre : ((acc ++ [(dm.domain, dm.domainHll)]).map Prod.fst ++
        rest.map (fun dm => dm.domain)).Nodup := by
      simp only [List.map_append, List.map_cons, List.map_nil, List.append_assoc,
        List.cons_append, List.nil_append]
      simpa [List.map_cons] using h
    rw [ih _ hre]
    simp

/-- **C5** (amended): with distinct domain names, `Truncate N` is a no-op
when `N ≤ 0` or the domain count is already `≤ N`; it never touches the
global query count, global estimator, global estimated client count,
version or date; and in the nontrivial case the surviving domain map holds
exactly `N` of the ranking entries, every discarded entry lying strictly
below every kept one in the code's comparator order (integer-quantised
magnitude, ties by name) — not the true-magnitude order of the claim. -/
theorem c5_truncate (ds : MagnitudeDataset) (N : Int)
    (hkeys : (ds.domains.map Prod.fst).Nodup) :
    ((N ≤ 0 ∨ (ds.domains.length : Int) ≤ N) → ds.Truncate N = ds) ∧
    ((ds.Truncate N).allQueriesCount = ds.allQueriesCount ∧
      (ds.Truncate N).allClientsHll = ds.allClientsHll ∧
      (ds.Truncate N).allClientsCount = ds.allClientsCount ∧
      (ds.Truncate N).version = ds.version ∧
      (ds.Truncate N).date = ds.date) ∧
    (0 < N → N < (ds.domains.length : Int) →
      ∃ kept dropped : List DomainMagnitude,
        kept.length = N.toNat ∧
        ds.magEntries.Perm (dropped ++ kept) ∧
        (ds.Truncate N).domains = kept.map (fun dm => (dm.domain, dm.domainHll)) ∧
        ∀ p ∈ dropped, ∀ e ∈ kept, magLE p e ∧ p.domain ≠ e.domain) := by
  refine ⟨?_, ?_, ?_⟩
  · intro h
    rw [MagnitudeDataset.Truncate, if_pos h]
  · by_cases hc : N ≤ 0 ∨ (ds.domains.length : Int) ≤ N
    · rw [MagnitudeDataset.Truncate, if_pos hc]
      exact ⟨rfl, rfl, rfl, rfl, rfl⟩
    · rw [MagnitudeDataset.Truncate, if_neg hc]
      exact ⟨rfl, rfl, rfl, rfl, rfl⟩
  · intro hN0 hNlen
    have hc : ¬(N ≤ 0 ∨ (ds.domains.length : Int) ≤ N) := by
      push_neg
      exact ⟨hN0, hNlen⟩
    set S := ds.SortedByMagnitude with hS
    have hperm : S.Perm ds.magEntries := sortedByMagnitude_perm ds
    have hlenS : S.length = ds.domains.length := by
      rw [hperm.length_eq]
      simp [MagnitudeDataset.magEntries]
    set k : Nat := (max ((S.length : Int) - N) 0).toNat with hkdef
    have htr : ds.Truncate N = { ds with
        domains := (S.drop k).foldl
          (fun m dm => alistInsert dm.domain dm.domainHll m) [] } := by
      rw [MagnitudeDataset.Truncate, if_neg hc]
    have hSkeys : (S.map (fun dm => dm.domain)).Nodup := by
      rw [(hperm.map (fun dm => dm.domain)).nodup_iff, magEntries_domains]
      exact hkeys
    have hk : k = S.length - N.toNat := by omega
    refine ⟨S.drop k, S.take k, ?_, ?_, ?_, ?_⟩
    · rw [List.length_drop]
      omega
    · rw [List.take_append_drop]
      exact hperm.symm
    · rw [htr]
      have hnd : (([] : List (String × DomainData)).map Prod.fst ++
          (S.drop k).map (fun dm => dm.domain)).Nodup := by
        simp only [List.map_nil, List.nil_append]
        exact hSkeys.sublist (List.Sublist.map _ (List.drop_sublist k S))
      rw [foldl_alistInsert_entries _ _ hnd]
      simp
    · have hsplit : S.take k ++ S.drop k = S := List.take_append_drop k S
      have hpw : List.Pairwise magLE (S.take k ++ S.drop k) := by
        rw [hsplit]
        exact sortedByMagnitude_sorted ds
      have hcross := (List.pairwise_append.mp hpw).2.2
      have hndk : ((S.take k).map (fun dm => dm.domain) ++
          (S.drop k).map (fun dm => dm.domain)).Nodup := by
        rw [← List.map_append, hsplit]
        exact hSkeys
      rw [List.nodup_append] at hndk
      intro p hp e he
      refine ⟨hcross p hp e he, fun heq => ?_⟩
      exact hndk.2.2 (List.mem_map_of_mem _ hp) (heq ▸ List.mem_map_of_mem _ he)

theorem c5_log1000_pos : (0 : ℝ) < Real.log 1000 :=
  Real.log_pos (by norm_num)

theorem c5_logC : Real.log ((1000000 : ℕ) : ℝ) = 2 * Real.log 1000 := by
  have h : ((1000000 : ℕ) : ℝ) = (1000 : ℝ) ^ (2 : ℕ) := by norm_num
  rw [h, Real.log_pow]
  norm_num

theorem c5_mag_b : magnitudeOf 1000000 c5ddb = 5 := by
  have hl := c5_log1000_pos
  rw [magnitudeOf, c5_logC]
  have h1000 : ((c5ddb.clientsCount : ℕ) : ℝ) = (1000 : ℝ) := by norm_num [c5ddb]
  rw [h1000]
  field_simp
  ring

theorem c5_mag_a_gt5 : (5 : ℝ) < magnitudeOf 1000000 c5dda := by
  have hl := c5_log1000_pos
  rw [magnitudeOf, c5_logC]
  have h1001 : ((c5dda.clientsCount : ℕ) : ℝ) = (1001 : ℝ) := by norm_num [c5dda]
  rw [h1001]
  have hlog : Real.log 1000 < Real.log 1001 := by
    apply Real.log_lt_log (by norm_num)
    norm_num
  rw [div_mul_eq_mul_div, lt_div_iff (by linarith)]
  linarith

theorem c5_log1000_gt5 : (5 : ℝ) < Real.log 1000 := by
  rw [Real.lt_log_iff_exp_lt (by norm_num)]
  have h5 : Real.exp 5 = Real.exp 1 ^ (5 : ℕ) := by
    rw [← Real.exp_nat_mul]
    norm_num
  rw [h5]
  calc Real.exp 1 ^ (5 : ℕ) < 2.7182818286 ^ (5 : ℕ) := by
        gcongr
        · exact Real.exp_one_lt_d9
    _ < 1000 := by norm_num

theorem c5_log1001_le : Real.log 1001 ≤ Real.log 1000 + 1 / 1000 := by
  have h : (1001 : ℝ) = 1000 * (1001 / 1000) := by norm_num
  rw [h, Real.log_mul (by norm_num) (by norm_num)]
  have := Real.log_le_sub_one_of_pos (show (0 : ℝ) < 1001 / 1000 by norm_num)
  linarith

theorem c5_mag_a_upper : magnitudeOf 1000000 c5dda * 1000 < 5001 := by
  have hl := c5_log1000_pos
  have h5 := c5_log1000_gt5
  have hle := c5_log1001_le
  rw [magnitudeOf, c5_logC]
  have h1001 : ((c5dda.clientsCount : ℕ) : ℝ) = (1001 : ℝ) := by norm_num [c5dda]
  rw [h1001, div_mul_eq_mul_div, div_mul_eq_mul_div, div_lt_iff (by linarith)]
  linarith

theorem c5_key_b : goTrunc (c5eb.magnitude * 1000) = 5000 := by
  have hmag : c5eb.magnitude = 5 := c5_mag_b
  rw [goTrunc, hmag, if_pos (by norm_num)]
  have h : ((5 : ℝ) * 1000) = ((5000 : ℤ) : ℝ) := by norm_num
  rw [h, Int.floor_intCast]

theorem c5_key_a : goTrunc (c5ea.magnitude * 1000) = 5000 := by
  have hlo : (5000 : ℝ) ≤ c5ea.magnitude * 1000 := by
    have := c5_mag_a_gt5
    show (5000 : ℝ) ≤ magnitudeOf 1000000 c5dda * 1000
    nlinarith
  have hhi : c5ea.magnitude * 1000 < 5001 := c5_mag_a_upper
  rw [goTrunc, if_pos (by linarith)]
  rw [Int.floor_eq_iff]
  constructor
  · exact_mod_cast hlo
  · push_cast
    linarith

theorem c5_str_a_le_b : ("a" : String) ≤ "b" := by
  rw [String.le_iff_toList_le]
  decide

theorem c5_magLE_ab : magLE c5ea c5eb := by
  refine Or.inr ⟨?_, ?_⟩
  · rw [c5_key_a, c5_key_b]
  · exact c5_str_a_le_b

theorem c5_sorted_eq : c5ds.SortedByMagnitude = [c5ea, c5eb] := by
  have hme : c5ds.magEntries = [c5ea, c5eb] := rfl
  rw [MagnitudeDataset.SortedByMagnitude, hme]
  simp only [List.insertionSort, List.orderedInsert]
  rw [if_pos c5_magLE_ab]

theorem c5_truncate_eq : (c5ds.Truncate 1).domains = [("b", c5ddb)] := by
  have hc : ¬((1 : Int) ≤ 0 ∨ (c5ds.domains.length : Int) ≤ 1) := by
    rw [show c5ds.domains.length = 2 from rfl]
    norm_num
  rw [MagnitudeDataset.Truncate, if_neg hc, c5_sorted_eq]
  norm_num [List.drop, alistInsert, c5eb]

/-- **C5 counterexample**: the code ranks by the *integer-quantised*
magnitude `int(m*1000)`, not by the magnitude itself.  In `c5ds` both
domains quantise to key 5000, so the tie-break by name decides:
`Truncate 1` keeps `"b"` and discards `"a"` — although `"a"`'s true
magnitude is strictly larger, so the claim's ranking (ascending by
magnitude, ties by name) would keep `"a"`. -/
theorem c5_spec_order_counterexample :
    (c5ds.Truncate 1).domains = [("b", c5ddb)] ∧
    c5ea ∈ c5ds.magEntries ∧
    alistLookup c5ea.domain (c5ds.Truncate 1).domains = none ∧
    c5eb.magnitude < c5ea.magnitude ∧
    ¬ specMagLE c5ea c5eb := by
  have htr := c5_truncate_eq
  have hlt : c5eb.magnitude < c5ea.magnitude := by
    have h1 : c5eb.magnitude = 5 := c5_mag_b
    have h2 : (5 : ℝ) < c5ea.magnitude := c5_mag_a_gt5
    rw [h1]
    exact h2
  refine ⟨htr, ?_, ?_, hlt, ?_⟩
  · rw [show c5ds.magEntries = [c5ea, c5eb] from rfl]
    simp
  · rw [htr]
    rfl
  · rintro (h | ⟨h, _⟩)
    · exact absurd hlt (lt_asymm h)
    · exact absurd h (ne_of_gt hlt)

/-- C5 witness: the two-domain dataset `c5ds`; `Truncate 5` is a no-op,
`Truncate 1` keeps one entry and leaves the global query count alone. -/
theorem c5_truncate_witness :
    (c5ds.domains.map Prod.fst).Nodup ∧
    c5ds.Truncate 5 = c5ds ∧
    (c5ds.Truncate 1).allQueriesCount = c5ds.allQueriesCount ∧
    (∃ kept dropped : List DomainMagnitude,
      kept.length = (1 : Int).toNat ∧
      c5ds.magEntries.Perm (dropped ++ kept) ∧
      (c5ds.Truncate 1).domains = kept.map (fun dm => (dm.domain, dm.domainHll)) ∧
      ∀ p ∈ dropped, ∀ e ∈ kept, magLE p e ∧ p.domain ≠ e.domain) :=
  ⟨by decide,
   (c5_truncate c5ds 5 (by decide)).1 (Or.inr (by decide)),
   (c5_truncate c5ds 1 (by decide)).2.1.1,
   (c5_truncate c5ds 1 (by decide)).2.2 (by decide) (by decide)⟩

/-! #### C6: serialize → deserialize → finalize reproduces the dataset

Roundtrip laws for every layer of the storage codec, bottom up: bit
strings, byte packing, the HLL storage scheme, CBOR heads and items, and
the dataset map. -/

theorem bitsBE_length (w n : Nat) : (bitsBE w n).length = w := by
  induction w generalizing n with
  | zero => rfl
  | succ k ih => simp [bitsBE, ih]

theorem fromBitsBE_append_one (bs : List Bool) (b : Bool) :
    fromBitsBE (bs ++ [b]) = 2 * fromBitsBE bs + (if b then 1 else 0) := by
  rw [fromBitsBE, List.foldl_append]
  rfl

theorem fromBitsBE_bitsBE (w : Nat) : ∀ n : Nat, n < 2 ^ w →
    fromBitsBE (bitsBE w n) = n := by
  induction w with
  | zero =>
    intro n hn
    interval_cases n
    rfl
  | succ k ih =>
    intro n hn
    have hdiv : n / 2 < 2 ^ k := by omega
    rw [bitsBE, fromBitsBE_append_one, ih (n / 2) hdiv]
    rcases Nat.mod_two_eq_zero_or_one n with h | h <;> simp [h] <;> omega

theorem bitsBE_fromBitsBE : ∀ bs : List Bool, bitsBE bs.length (fromBitsBE bs) = bs := by
  intro bs
  induction bs using List.reverseRecOn with
  | nil => rfl
  | append_singleton xs b ih =>
    rw [fromBitsBE_append_one, List.length_append, List.length_singleton, bitsBE]
    have h2 : (2 * fromBitsBE xs + (if b then 1 else 0)) / 2 = fromBitsBE xs := by
      cases b <;> simp <;> omega
    have h3 : decide ((2 * fromBitsBE xs + (if b then 1 else 0)) % 2 = 1) = b := by
      cases b <;> simp <;> omega
    rw [h2, h3, ih]

theorem bytesToBits_cons (b : Nat) (bs : List Nat) :
    bytesToBits (b :: bs) = bitsBE 8 b ++ bytesToBits bs := rfl

theorem bytesToBits_bitsToBytes : ∀ bits : List Bool, bits.length % 8 = 0 →
    bytesToBits (bitsToBytes bits) = bits
  | [], _ => rfl
  | b0 :: b1 :: b2 :: b3 :: b4 :: b5 :: b6 :: b7 :: rest, h => by
    have hrest : rest.length % 8 = 0 := by
      simp only [List.length_cons] at h
      omega
    have ih := bytesToBits_bitsToBytes rest hrest
    rw [bitsToBytes, bytesToBits_cons, ih]
    have hb : bitsBE 8 (fromBitsBE [b0, b1, b2, b3, b4, b5, b6, b7]) =
        [b0, b1, b2, b3, b4, b5, b6, b7] :=
      bitsBE_fromBitsBE [b0, b1, b2, b3, b4, b5, b6, b7]
    rw [hb]
    rfl
  | [_], h => by simp at h
  | [_, _], h => by simp at h
  | [_, _, _], h => by simp at h
  | [_, _, _, _], h => by simp at h
  | [_, _, _, _, _], h => by simp at h
  | [_, _, _, _, _, _], h => by simp at h
  | [_, _, _, _, _, _, _], h => by simp at h

theorem bitsToBytes_length_le : ∀ bits : List Bool,
    (bitsToBytes bits).length ≤ bits.length
  | [] => by simp [bitsToBytes]
  | [_] => by simp [bitsToBytes]
  | [_, _] => by simp [bitsToBytes]
  | [_, _, _] => by simp [bitsToBytes]
  | [_, _, _, _] => by simp [bitsToBytes]
  | [_, _, _, _, _] => by simp [bitsToBytes]
  | [_, _, _, _, _, _] => by simp [bitsToBytes]
  | [_, _, _, _, _, _, _] => by simp [bitsToBytes]
  | b0 :: b1 :: b2 :: b3 :: b4 :: b5 :: b6 :: b7 :: rest => by
    have ih := bitsToBytes_length_le rest
    rw [bitsToBytes]
    simp only [List.length_cons]
    omega

theorem padBits_length_mod (bits : List Bool) : (padBits bits).length % 8 = 0 := by
  simp only [padBits, List.length_append, List.length_replicate]
  omega

theorem padBits_length (bits : List Bool) :
    (padBits bits).length = bits.length + (8 - bits.length % 8) % 8 := by
  simp [padBits]

theorem wordBits_length (l rw : Nat) (p : Nat × Nat) :
    (wordBits l rw p).length = l + rw := bitsBE_length _ _

theorem takeWords_cons (l rw : Nat) (p : Nat × Nat) (hp1 : p.1 < 2 ^ l)
    (hp2 : p.2 < 2 ^ rw) (k : Nat) (rest : List Bool) :
    takeWords l rw (k + 1) (wordBits l rw p ++ rest) = p :: takeWords l rw k rest := by
  have hlen : (wordBits l rw p).length = l + rw := wordBits_length l rw p
  have htake : (wordBits l rw p ++ rest).take (l + rw) = wordBits l rw p := by
    rw [← hlen, List.take_left]
  have hdrop : (wordBits l rw p ++ rest).drop (l + rw) = rest := by
    rw [← hlen, List.drop_left]
  have hB : 0 < 2 ^ rw := Nat.pos_pow_of_pos rw (by norm_num)
  have hval : fromBitsBE (wordBits l rw p) = p.1 * 2 ^ rw + p.2 := by
    rw [wordBits]
    apply fromBitsBE_bitsBE
    calc p.1 * 2 ^ rw + p.2 < p.1 * 2 ^ rw + 2 ^ rw := by omega
      _ = (p.1 + 1) * 2 ^ rw := by ring
      _ ≤ 2 ^ l * 2 ^ rw := Nat.mul_le_mul_right _ (by omega)
      _ = 2 ^ (l + rw) := (pow_add 2 l rw).symm
  rw [takeWords, htake, hdrop, hval]
  have hdiv : (p.1 * 2 ^ rw + p.2) / 2 ^ rw = p.1 := by
    rw [Nat.mul_comm p.1 (2 ^ rw), Nat.mul_add_div hB, Nat.div_eq_of_lt hp2,
      Nat.add_zero]
  have hmod : (p.1 * 2 ^ rw + p.2) % 2 ^ rw = p.2 := by
    rw [Nat.mul_comm p.1 (2 ^ rw), Nat.mul_add_mod, Nat.mod_eq_of_lt hp2]
  rw [hdiv, hmod]

theorem takeWords_foldr (l rw : Nat) (regs : List (Nat × Nat)) :
    ∀ rest : List Bool,
      (∀ p ∈ regs, p.1 < 2 ^ l ∧ p.2 < 2 ^ rw) →
      takeWords l rw regs.length
        ((regs.foldr (fun p acc => wordBits l rw p ++ acc) []) ++ rest) = regs := by
  induction regs with
  | nil => intro rest _; rfl
  | cons p tl ih =>
    intro rest h
    rw [List.foldr_cons, List.length_cons, List.append_assoc]
    rw [takeWords_cons l rw p (h p (by simp)).1 (h p (by simp)).2]
    rw [ih rest (fun q hq => h q (by simp [hq]))]

theorem foldr_wordBits_length (l rw : Nat) (regs : List (Nat × Nat)) :
    (regs.foldr (fun p acc => wordBits l rw p ++ acc) []).length =
      regs.length * (l + rw) := by
  induction regs with
  | nil => simp
  | cons p tl ih =>
    rw [List.foldr_cons, List.length_append, wordBits_length, ih, List.length_cons]
    ring

/-- The HLL storage roundtrip: reading back a written estimator state
recovers it exactly, for well-formed states whose packed word width is at
least a byte (the production width is 19 bits). -/
theorem hll_fromBytes_toBytes (h : Hll) (hwf : h.wf)
    (hw : 8 ≤ h.settings.log2m + h.settings.regwidth) :
    Hll.fromBytes h.toBytes = .ok h := by
  obtain ⟨⟨l2m, rgw⟩, regs⟩ := h
  obtain ⟨hsort, hl32, hrw1, hrw8, hreg⟩ := hwf
  simp only at hl32 hrw1 hrw8 hreg hw
  have hparam1 : ((rgw - 1) * 32 + l2m) % 32 = l2m := by omega
  have hparam2 : ((rgw - 1) * 32 + l2m) / 32 + 1 = rgw := by omega
  by_cases hre : regs = []
  · subst hre
    simp [Hll.toBytes, Hll.fromBytes, hparam1, hparam2]
  · simp only [Hll.toBytes, if_neg hre]
    set wbits := regs.foldr (fun p acc => wordBits l2m rgw p ++ acc) [] with hwb
    have hmod := padBits_length_mod wbits
    have hbits : bytesToBits (bitsToBytes (padBits wbits)) = padBits wbits :=
      bytesToBits_bitsToBytes _ hmod
    simp only [List.cons_append, List.nil_append]
    simp only [Hll.fromBytes, hbits]
    rw [if_neg (by norm_num), if_pos (by norm_num), hparam1, hparam2]
    have hwlen : wbits.length = regs.length * (l2m + rgw) :=
      foldr_wordBits_length l2m rgw regs
    have hplen := padBits_length wbits
    set pad := (8 - wbits.length % 8) % 8 with hpad
    have hpadlt : pad < l2m + rgw := by omega
    have hcount : (padBits wbits).length / (l2m + rgw) = regs.length := by
      rw [hplen, hwlen, Nat.mul_comm, Nat.mul_add_div (by omega),
        Nat.div_eq_of_lt (by omega)]
      omega
    rw [hcount]
    have hpb : padBits wbits = wbits ++ List.replicate pad false := by
      rw [padBits]
    rw [hpb, hwb]
    rw [takeWords_foldr l2m rgw regs (List.replicate pad false)
      (fun p hp => ⟨(hreg p hp).1, (hreg p hp).2.2⟩)]

theorem bytesBE_length (w n : Nat) : (bytesBE w n).length = w := by
  induction w generalizing n with
  | zero => rfl
  | succ k ih => simp [bytesBE, ih]

theorem readBE_append_one (bs : List Nat) (b : Nat) :
    readBE (bs ++ [b]) = readBE bs * 256 + b := by
  rw [readBE, List.foldl_append]
  rfl

theorem readBE_bytesBE (w : Nat) : ∀ n : Nat, n < 256 ^ w →
    readBE (bytesBE w n) = n := by
  induction w with
  | zero =>
    intro n hn
    interval_cases n
    rfl
  | succ k ih =>
    intro n hn
    have hdiv : n / 256 < 256 ^ k := by
      have : 256 ^ (k + 1) = 256 ^ k * 256 := by ring
      omega
    rw [bytesBE, readBE_append_one, ih (n / 256) hdiv]
    omega

/-- A CBOR head roundtrips for any major type and any `uint64` argument. -/
theorem decodeHead_cborHead (maj arg : Nat) (hmaj : maj < 8) (harg : arg < 2 ^ 64)
    (rest : List Nat) :
    decodeHead (cborHead maj arg ++ rest) = some ((maj, arg), rest) := by
  rw [cborHead]
  by_cases h1 : arg < 24
  · rw [if_pos h1]
    simp only [List.cons_append, List.nil_append, decodeHead]
    have ha : (maj * 32 + arg) / 32 = maj := by omega
    have hb : (maj * 32 + arg) % 32 = arg := by omega
    simp [ha, hb, h1]
  · rw [if_neg h1]
    by_cases h2 : arg < 2 ^ 8
    · rw [if_pos h2]
      simp only [List.cons_append, List.nil_append, decodeHead]
      have ha : (maj * 32 + 24) / 32 = maj := by omega
      have hb : (maj * 32 + 24) % 32 = 24 := by omega
      simp [ha, hb]
    · rw [if_neg h2]
      by_cases h3 : arg < 2 ^ 16
      · rw [if_pos h3]
        simp only [List.cons_append, decodeHead]
        have ha : (maj * 32 + 25) / 32 = maj := by omega
        have hb : (maj * 32 + 25) % 32 = 25 := by omega
        have hlen : (bytesBE 2 arg).length = 2 := bytesBE_length 2 arg
        have htk : (bytesBE 2 arg ++ rest).take 2 = bytesBE 2 arg :=
          List.take_left' hlen
        have hdp : (bytesBE 2 arg ++ rest).drop 2 = rest :=
          List.drop_left' hlen
        have hread : readBE (bytesBE 2 arg) = arg :=
          readBE_bytesBE 2 arg (by norm_num at h3 ⊢; exact h3)
        simp [ha, hb, htk, hdp, hread, List.length_append, hlen]
      · rw [if_neg h3]
        by_cases h4 : arg < 2 ^ 32
        · rw [if_pos h4]
          simp only [List.cons_append, decodeHead]
          have ha : (maj * 32 + 26) / 32 = maj := by omega
          have hb : (maj * 32 + 26) % 32 = 26 := by omega
          have hlen : (bytesBE 4 arg).length = 4 := bytesBE_length 4 arg
          have htk : (bytesBE 4 arg ++ rest).take 4 = bytesBE 4 arg :=
            List.take_left' hlen
          have hdp : (bytesBE 4 arg ++ rest).drop 4 = rest :=
            List.drop_left' hlen
          have hread : readBE (bytesBE 4 arg) = arg :=
            readBE_bytesBE 4 arg (by norm_num at h4 ⊢; exact h4)
          simp [ha, hb, htk, hdp, hread, List.length_append, hlen]
        · rw [if_neg h4]
          simp only [List.cons_append, decodeHead]
          have ha : (maj * 32 + 27) / 32 = maj := by omega
          have hb : (maj * 32 + 27) % 32 = 27 := by omega
          have hlen : (bytesBE 8 arg).length = 8 := bytesBE_length 8 arg
          have htk : (bytesBE 8 arg ++ rest).take 8 = bytesBE 8 arg :=
            List.take_left' hlen
          have hdp : (bytesBE 8 arg ++ rest).drop 8 = rest :=
            List.drop_left' hlen
          have hread : readBE (bytesBE 8 arg) = arg :=
            readBE_bytesBE 8 arg (by norm_num at harg ⊢; exact harg)
          simp [ha, hb, htk, hdp, hread, List.length_append, hlen]

theorem decodeUintItem_encodeUint (n : Nat) (h : n < 2 ^ 64) (rest : List Nat) :
    decodeUintItem (encodeUint n ++ rest) = some (n, rest) := by
  rw [encodeUint, decodeUintItem, decodeHead_cborHead 0 n (by norm_num) h rest]
  simp

theorem decodeBytesItem_encodeBytesItem (bs : List Nat) (h : bs.length < 2 ^ 64)
    (rest : List Nat) :
    decodeBytesItem (encodeBytesItem bs ++ rest) = some (bs, rest) := by
  rw [encodeBytesItem, List.append_assoc, decodeBytesItem,
    decodeHead_cborHead 2 bs.length (by norm_num) h (bs ++ rest)]
  simp [List.take_left, List.drop_left]

theorem decodeTextItem_encodeTextItem (s : String) (h : s.data.length < 2 ^ 64)
    (rest : List Nat) :
    decodeTextItem (encodeTextItem s ++ rest) = some (s, rest) := by
  rw [encodeTextItem, List.append_assoc, decodeTextItem,
    decodeHead_cborHead 3 s.data.length (by norm_num) h (s.data.map Char.toNat ++ rest)]
  have hlen : (s.data.map Char.toNat).length = s.data.length := by simp
  have htk : (s.data.map Char.toNat ++ rest).take s.data.length =
      s.data.map Char.toNat := List.take_left' hlen
  have hdp : (s.data.map Char.toNat ++ rest).drop s.data.length = rest :=
    List.drop_left' hlen
  have hcomp : Char.ofNat ∘ Char.toNat = id := funext Char.ofNat_toNat
  simp [htk, hdp, List.map_map, hcomp]

theorem expectText_encodeTextItem (key : String) (h : key.data.length < 2 ^ 64)
    (rest : List Nat) :
    expectText key (encodeTextItem key ++ rest) = some rest := by
  rw [expectText, decodeTextItem_encodeTextItem key h rest]
  simp

/-- The register list of a well-formed estimator is bounded by the
register count, so its byte encoding fits any CBOR length field. -/
theorem hll_toBytes_length (h : Hll) (hwf : h.wf) : h.toBytes.length < 2 ^ 64 := by
  obtain ⟨⟨l2m, rgw⟩, regs⟩ := h
  obtain ⟨hsort, hl32, hrw1, hrw8, hreg⟩ := hwf
  simp only at hl32 hrw1 hrw8 hreg
  have hkeys : (regs.map Prod.fst).Nodup := by
    have h1 : (regs.map Prod.fst).Pairwise (fun a b => a < b) := by
      rw [List.pairwise_map]
      exact hsort
    exact h1.nodup
  have hsub : regs.map Prod.fst ⊆ List.range (2 ^ l2m) := by
    intro k hk
    rw [List.mem_range]
    obtain ⟨p, hp, rfl⟩ := List.mem_map.mp hk
    exact (hreg p hp).1
  have hcard : regs.length ≤ 2 ^ l2m := by
    have := (hkeys.subperm hsub).length_le
    simpa using this
  have hlm : (2 : Nat) ^ l2m ≤ 2 ^ 31 := Nat.pow_le_pow_right (by norm_num) (by omega)
  rw [Hll.toBytes]
  by_cases hre : regs = []
  · rw [if_pos hre]
    norm_num
  · rw [if_neg hre]
    have hb := bitsToBytes_length_le
      (padBits (regs.foldr (fun p acc => wordBits l2m rgw p ++ acc) []))
    have hp := padBits_length (regs.foldr (fun p acc => wordBits l2m rgw p ++ acc) [])
    have hw := foldr_wordBits_length l2m rgw regs
    have hmul : regs.length * (l2m + rgw) ≤ 2 ^ 31 * 40 :=
      Nat.mul_le_mul (le_trans hcard hlm) (by omega)
    simp only [List.length_append, List.length_cons, List.length_nil]
    omega

/-- A stored estimator roundtrips through its CBOR byte-string item. -/
theorem decodeHllItem_enc (h : Hll) (hwf : h.wf)
    (hw : 8 ≤ h.settings.log2m + h.settings.regwidth) (rest : List Nat) :
    decodeHllItem (encodeBytesItem h.toBytes ++ rest) = some (h, rest) := by
  rw [decodeHllItem,
    decodeBytesItem_encodeBytesItem h.toBytes (hll_toBytes_length h hwf) rest]
  simp only [hll_fromBytes_toBytes h hwf hw]

theorem decodeDateItem_enc (d : Date) (hs : d.string.data.length < 2 ^ 64)
    (hparse : parseDateOnly d.string = some d) (rest : List Nat) :
    decodeDateItem (encodeDateItem d ++ rest) = some (d, rest) := by
  rw [encodeDateItem, List.append_assoc, decodeDateItem,
    decodeHead_cborHead 6 1004 (by norm_num) (by norm_num)
      (encodeTextItem d.string ++ rest)]
  simp [decodeTextItem_encodeTextItem d.string hs rest, hparse]

theorem decodeDomainData_enc (dd : DomainData) (hwf : dd.hll.wf)
    (hw : 8 ≤ dd.hll.settings.log2m + dd.hll.settings.regwidth)
    (hcc : dd.clientsCount < 2 ^ 64) (hqc : dd.queriesCount < 2 ^ 64)
    (rest : List Nat) :
    decodeDomainData (encodeDomainData dd ++ rest) =
      some ({ dd with extraAllClients := [] }, rest) := by
  rw [encodeDomainData]
  simp only [List.append_assoc]
  rw [decodeDomainData, decodeHead_cborHead 5 3 (by norm_num) (by norm_num)]
  simp [expectText_encodeTextItem "clients_hll" (by norm_num),
    decodeHllItem_enc dd.hll hwf hw,
    expectText_encodeTextItem "clients_count" (by norm_num),
    decodeUintItem_encodeUint dd.clientsCount hcc,
    expectText_encodeTextItem "queries_count" (by norm_num),
    decodeUintItem_encodeUint dd.queriesCount hqc]

theorem decodeDomains_enc (doms : List (String × DomainData)) :
    ∀ rest : List Nat,
      (∀ p ∈ doms, p.1.data.length < 2 ^ 64 ∧ p.2.hll.wf ∧
        8 ≤ p.2.hll.settings.log2m + p.2.hll.settings.regwidth ∧
        p.2.clientsCount < 2 ^ 64 ∧ p.2.queriesCount < 2 ^ 64) →
      decodeDomains doms.length
        ((doms.foldr (fun p acc => encodeTextItem p.1 ++ encodeDomainData p.2 ++ acc)
          []) ++ rest) =
        some (doms.map (fun p => (p.1, { p.2 with extraAllClients := [] })), rest) := by
  induction doms with
  | nil => intro rest _; rfl
  | cons p tl ih =>
    intro rest h
    obtain ⟨h1, h2, h3, h4, h5⟩ := h p (by simp)
    have ih' := ih rest (fun q hq => h q (by simp [hq]))
    rw [List.foldr_cons, List.length_cons, decodeDomains]
    simp only [List.append_assoc] at ih' ⊢
    simp only [decodeTextItem_encodeTextItem p.1 h1,
      decodeDomainData_enc p.2 h2 h3 h4 h5, ih', List.map_cons]

/-- Decoding an encoded dataset off the head of a buffer succeeds,
consumes exactly the encoding, and returns its wire view. -/
theorem decodeDataset_encodeDataset (ds : MagnitudeDataset)
    (h : EncodableDataset ds) (rest : List Nat) :
    decodeDataset (encodeDataset ds ++ rest) = some (wireView ds, rest) := by
  obtain ⟨hv, hid, hgen, hdlen, hdate, hgwf, hgw, hacc, haqc, hdoms, hdom⟩ := h
  have hdd := decodeDomains_enc ds.domains rest hdom
  simp only [List.append_assoc] at hdd
  rw [encodeDataset]
  simp only [List.append_assoc]
  rw [decodeDataset, decodeHead_cborHead 5 8 (by norm_num) (by norm_num)]
  simp only [dite_eq_ite, and_self, if_true,
    expectText_encodeTextItem "version" (by norm_num),
    decodeUintItem_encodeUint ds.version (by omega),
    expectText_encodeTextItem "id" (by norm_num),
    decodeTextItem_encodeTextItem ds.identifier hid,
    expectText_encodeTextItem "generator" (by norm_num),
    decodeTextItem_encodeTextItem ds.generator hgen,
    expectText_encodeTextItem "date" (by norm_num),
    decodeDateItem_enc ds.date hdlen hdate,
    expectText_encodeTextItem "all_clients_hll" (by norm_num),
    decodeHllItem_enc ds.allClientsHll hgwf hgw,
    expectText_encodeTextItem "all_clients_count" (by norm_num),
    decodeUintItem_encodeUint ds.allClientsCount hacc,
    expectText_encodeTextItem "all_queries_count" (by norm_num),
    decodeUintItem_encodeUint ds.allQueriesCount haqc,
    expectText_encodeTextItem "domains" (by norm_num),
    decodeHead_cborHead 5 ds.domains.length (by norm_num) hdoms,
    hdd, hv]
  rfl

/-- **C6**: serializing a finalized dataset to CBOR and deserializing and
finalizing it again reproduces the exact counters (global and per-domain
query counts, client counts) and the estimator states — hence their
canonical byte encodings — of the original post-finalize dataset.  The
decoded domain map carries the identical estimator (`hll`) and counters,
differing only in the unexported in-memory `extra*` bookkeeping fields,
which are not part of the wire format. -/
theorem c6_serialize_roundtrip (ds : MagnitudeDataset)
    (hfin : ds.finaliseStats = ds) (henc : EncodableDataset ds) :
    ∃ ds', decodeDataset (MarshalDatasetToCBOR ds) = some (ds', []) ∧
      ds'.finaliseStats.version = ds.version ∧
      ds'.finaliseStats.date = ds.date ∧
      ds'.finaliseStats.allQueriesCount = ds.allQueriesCount ∧
      ds'.finaliseStats.allClientsCount = ds.allClientsCount ∧
      ds'.finaliseStats.allClientsHll.toBytes = ds.allClientsHll.toBytes ∧
      ds'.finaliseStats.domains =
        ds.domains.map (fun p => (p.1, { p.2 with extraAllClients := [] })) := by
  have hfd : ds.domains.map
      (fun p => (p.1, { p.2 with clientsCount := p.2.hll.cardinality })) =
      ds.domains := congrArg MagnitudeDataset.domains hfin
  have hfc : ds.allClientsHll.cardinality = ds.allClientsCount :=
    congrArg MagnitudeDataset.allClientsCount hfin
  refine ⟨wireView ds, ?_, rfl, rfl, rfl, ?_, rfl, ?_⟩
  · have h := decodeDataset_encodeDataset ds henc []
    rw [List.append_nil] at h
    exact h
  · exact hfc
  · have hproj : (wireView ds).finaliseStats.domains =
        (wireView ds).domains.map
          (fun p => (p.1, { p.2 with clientsCount := p.2.hll.cardinality })) := rfl
    rw [hproj, wireView]
    simp only [List.map_map]
    apply List.map_congr_left
    intro p hp
    have hself := list_map_eq_self hfd p hp
    have h2 : ({ p.2 with clientsCount := p.2.hll.cardinality } : DomainData) = p.2 := by
      have := congrArg Prod.snd hself
      simpa using this
    have h3 : p.2.hll.cardinality = p.2.clientsCount :=
      congrArg DomainData.clientsCount h2
    simp [Function.comp, h3]

/-- C6 witness: the concrete finalized production dataset `c2D`
roundtrips through its CBOR encoding. -/
theorem c6_serialize_roundtrip_witness :
    c2D.finaliseStats = c2D ∧ EncodableDataset c2D ∧
    (∃ ds', decodeDataset (MarshalDatasetToCBOR c2D) = some (ds', []) ∧
      ds'.finaliseStats.version = c2D.version ∧
      ds'.finaliseStats.date = c2D.date ∧
      ds'.finaliseStats.allQueriesCount = c2D.allQueriesCount ∧
      ds'.finaliseStats.allClientsCount = c2D.allClientsCount ∧
      ds'.finaliseStats.allClientsHll.toBytes = c2D.allClientsHll.toBytes ∧
      ds'.finaliseStats.domains =
        c2D.domains.map (fun p => (p.1, { p.2 with extraAllClients := [] }))) :=
  ⟨by decide, by decide, c6_serialize_roundtrip c2D (by decide) (by decide)⟩

/-! #### C7: the sequence reader

Extension (monotonicity) laws: a decode that succeeds on a buffer
succeeds identically on any extension of it, consuming the same bytes.
Together with the roundtrip laws these pin down the reader's behaviour on
arbitrarily chunked input: a complete value at the head of the buffer is
always consumed exactly, and an incomplete one makes the decoder wait for
more input (a successful decode of a strict prefix of an encoding would
contradict the extension law). -/

theorem decodeHead_extend {bs : List Nat} {mn : Nat × Nat} {r : List Nat}
    (ext : List Nat) (h : decodeHead bs = some (mn, r)) :
    decodeHead (bs ++ ext) = some (mn, r ++ ext) := by
  match bs with
  | [] => simp [decodeHead] at h
  | b :: rest =>
    obtain ⟨maj, n⟩ := mn
    simp only [List.cons_append, decodeHead] at h ⊢
    by_cases h1 : b % 32 < 24
    · simp only [if_pos h1, Option.some.injEq, Prod.mk.injEq] at h ⊢
      obtain ⟨hmn, hr⟩ := h
      exact ⟨hmn, by rw [← hr]⟩
    · by_cases h2 : b % 32 = 24
      · simp only [if_neg h1, if_pos h2] at h ⊢
        cases rest with
        | nil => simp at h
        | cons a r2 =>
          simp only [List.cons_append, Option.some.injEq, Prod.mk.injEq] at h ⊢
          obtain ⟨hmn, hr⟩ := h
          exact ⟨hmn, by rw [← hr]⟩
      · by_cases h3 : b % 32 = 25
        · simp only [if_neg h1, if_neg h2, if_pos h3] at h ⊢
          split at h
          · rename_i hlen
            simp only [Option.some.injEq, Prod.mk.injEq] at h
            obtain ⟨hmn, hr⟩ := h
            rw [if_pos (by simp only [List.length_append]; omega)]
            rw [List.take_append_of_le_length hlen, List.drop_append_of_le_length hlen]
            simp only [Option.some.injEq, Prod.mk.injEq]
            exact ⟨hmn, by rw [← hr]⟩
          · exact absurd h (by simp)
        · by_cases h4 : b % 32 = 26
          · simp only [if_neg h1, if_neg h2, if_neg h3, if_pos h4] at h ⊢
            split at h
            · rename_i hlen
              simp only [Option.some.injEq, Prod.mk.injEq] at h
              obtain ⟨hmn, hr⟩ := h
              rw [if_pos (by simp only [List.length_append]; omega)]
              rw [List.take_append_of_le_length hlen, List.drop_append_of_le_length hlen]
              simp only [Option.some.injEq, Prod.mk.injEq]
              exact ⟨hmn, by rw [← hr]⟩
            · exact absurd h (by simp)
          · by_cases h5 : b % 32 = 27
            · simp only [if_neg h1, if_neg h2, if_neg h3, if_neg h4, if_pos h5] at h ⊢
              split at h
              · rename_i hlen
                simp only [Option.some.injEq, Prod.mk.injEq] at h
                obtain ⟨hmn, hr⟩ := h
                rw [if_pos (by simp only [List.length_append]; omega)]
                rw [List.take_append_of_le_length hlen,
                  List.drop_append_of_le_length hlen]
                simp only [Option.some.injEq, Prod.mk.injEq]
                exact ⟨hmn, by rw [← hr]⟩
              · exact absurd h (by simp)
            · simp only [if_neg h1, if_neg h2, if_neg h3, if_neg h4, if_neg h5] at h
              exact absurd h (by simp)

theorem decodeUintItem_extend {bs : List Nat} {n : Nat} {r : List Nat}
    (ext : List Nat) (h : decodeUintItem bs = some (n, r)) :
    decodeUintItem (bs ++ ext) = some (n, r ++ ext) := by
  unfold decodeUintItem at h
  split at h
  · rename_i maj n0 r0 heq
    split at h
    · rename_i hmaj
      simp only [Option.some.injEq, Prod.mk.injEq] at h
      obtain ⟨hn, hr⟩ := h
      subst hn; subst hr
      simp only [decodeUintItem, decodeHead_extend ext heq, hmaj, if_true]
    · exact absurd h (by simp)
  · exact absurd h (by simp)

theorem decodeBytesItem_extend {bs : List Nat} {v r : List Nat}
    (ext : List Nat) (h : decodeBytesItem bs = some (v, r)) :
    decodeBytesItem (bs ++ ext) = some (v, r ++ ext) := by
  unfold decodeBytesItem at h
  split at h
  · rename_i maj n0 r0 heq
    split at h
    · rename_i hcond
      simp only [Option.some.injEq, Prod.mk.injEq] at h
      obtain ⟨hv, hr⟩ := h
      subst hv; subst hr
      simp only [decodeBytesItem, decodeHead_extend ext heq]
      rw [if_pos ⟨hcond.1, by simp only [List.length_append]; omega⟩]
      rw [List.take_append_of_le_length hcond.2, List.drop_append_of_le_length hcond.2]
    · exact absurd h (by simp)
  · exact absurd h (by simp)

theorem decodeTextItem_extend {bs : List Nat} {s : String} {r : List Nat}
    (ext : List Nat) (h : decodeTextItem bs = some (s, r)) :
    decodeTextItem (bs ++ ext) = some (s, r ++ ext) := by
  unfold decodeTextItem at h
  split at h
  · rename_i maj n0 r0 heq
    split at h
    · rename_i hcond
      simp only [Option.some.injEq, Prod.mk.injEq] at h
      obtain ⟨hs, hr⟩ := h
      subst hs; subst hr
      simp only [decodeTextItem, decodeHead_extend ext heq]
      rw [if_pos ⟨hcond.1, by simp only [List.length_append]; omega⟩]
      rw [List.take_append_of_le_length hcond.2, List.drop_append_of_le_length hcond.2]
    · exact absurd h (by simp)
  · exact absurd h (by simp)

theorem expectText_extend {key : String} {bs r : List Nat}
    (ext : List Nat) (h : expectText key bs = some r) :
    expectText key (bs ++ ext) = some (r ++ ext) := by
  unfold expectText at h
  split at h
  · rename_i s r0 heq
    split at h
    · rename_i hkey
      simp only [Option.some.injEq] at h
      subst h
      simp only [expectText, decodeTextItem_extend ext heq, hkey, if_true]
    · exact absurd h (by simp)
  · exact absurd h (by simp)

theorem decodeHllItem_extend {bs : List Nat} {v : Hll} {r : List Nat}
    (ext : List Nat) (h : decodeHllItem bs = some (v, r)) :
    decodeHllItem (bs ++ ext) = some (v, r ++ ext) := by
  unfold decodeHllItem at h
  split at h
  · rename_i raw r0 heq
    split at h
    · rename_i hh heq2
      simp only [Option.some.injEq, Prod.mk.injEq] at h
      obtain ⟨hv, hr⟩ := h
      subst hv; subst hr
      simp only [decodeHllItem, decodeBytesItem_extend ext heq, heq2]
    · exact absurd h (by simp)
  · exact absurd h (by simp)

theorem decodeDateItem_extend {bs : List Nat} {d : Date} {r : List Nat}
    (ext : List Nat) (h : decodeDateItem bs = some (d, r)) :
    decodeDateItem (bs ++ ext) = some (d, r ++ ext) := by
  unfold decodeDateItem at h
  split at h
  · rename_i maj n0 r0 heq
    split at h
    · rename_i hcond
      split at h
      · rename_i s r1 heq2
        split at h
        · rename_i d0 heq3
          simp only [Option.some.injEq, Prod.mk.injEq] at h
          obtain ⟨hd, hr⟩ := h
          subst hd; subst hr
          simp only [decodeDateItem, decodeHead_extend ext heq]
          rw [if_pos hcond]
          simp only [decodeTextItem_extend ext heq2, heq3]
        · exact absurd h (by simp)
      · exact absurd h (by simp)
    · exact absurd h (by simp)
  · exact absurd h (by simp)

theorem decodeDomainData_extend {bs : List Nat} {dd : DomainData} {r : List Nat}
    (ext : List Nat) (h : decodeDomainData bs = some (dd, r)) :
    decodeDomainData (bs ++ ext) = some (dd, r ++ ext) := by
  unfold decodeDomainData at h
  split at h
  · rename_i maj n0 r0 heq0
    split at h
    · rename_i hmn
      split at h
      · rename_i r1 heq1
        split at h
        · rename_i hv r2 heq2
          split at h
          · rename_i r3 heq3
            split at h
            · rename_i cc r4 heq4
              split at h
              · rename_i r5 heq5
                split at h
                · rename_i qc r6 heq6
                  simp only [Option.some.injEq, Prod.mk.injEq] at h
                  obtain ⟨hdd, hr⟩ := h
                  subst hdd; subst hr
                  simp only [decodeDomainData, decodeHead_extend ext heq0]
                  rw [dif_pos hmn]
                  simp only [expectText_extend ext heq1,
                    decodeHllItem_extend ext heq2, expectText_extend ext heq3,
                    decodeUintItem_extend ext heq4, expectText_extend ext heq5,
                    decodeUintItem_extend ext heq6]
                · exact absurd h (by simp)
              · exact absurd h (by simp)
            · exact absurd h (by simp)
          · exact absurd h (by simp)
        · exact absurd h (by simp)
      · exact absurd h (by simp)
    · exact absurd h (by simp)
  · exact absurd h (by simp)

theorem decodeDomains_extend {k : Nat} {bs : List Nat}
    {l : List (String × DomainData)} {r : List Nat}
    (ext : List Nat) (h : decodeDomains k bs = some (l, r)) :
    decodeDomains k (bs ++ ext) = some (l, r ++ ext) := by
  induction k generalizing bs l r with
  | zero =>
    unfold decodeDomains at h
    simp only [Option.some.injEq, Prod.mk.injEq] at h
    obtain ⟨hl, hr⟩ := h
    subst hl; subst hr
    rfl
  | succ k ih =>
    unfold decodeDomains at h
    split at h
    · rename_i name r0 heq0
      split at h
      · rename_i dd r1 heq1
        split at h
        · rename_i rest r2 heq2
          simp only [Option.some.injEq, Prod.mk.injEq] at h
          obtain ⟨hl, hr⟩ := h
          subst hl; subst hr
          simp only [decodeDomains, decodeTextItem_extend ext heq0,
            decodeDomainData_extend ext heq1, ih heq2]
        · exact absurd h (by simp)
      · exact absurd h (by simp)
    · exact absurd h (by simp)

theorem decodeDataset_extend {bs : List Nat} {ds : MagnitudeDataset} {r : List Nat}
    (ext : List Nat) (h : decodeDataset bs = some (ds, r)) :
    decodeDataset (bs ++ ext) = some (ds, r ++ ext) := by
  unfold decodeDataset at h
  split at h
  · rename_i maj n0 r0 heq0
    split at h
    · rename_i hmn
      split at h
      · rename_i r1 heq1
        split at h
        · rename_i v r2 heq2
          split at h
          · rename_i r3 heq3
            split at h
            · rename_i ident r4 heq4
              split at h
              · rename_i r5 heq5
                split at h
                · rename_i gen r6 heq6
                  split at h
                  · rename_i r7 heq7
                    split at h
                    · rename_i date r8 heq8
                      split at h
                      · rename_i r9 heq9
                        split at h
                        · rename_i ghll r10 heq10
                          split at h
                          · rename_i r11 heq11
                            split at h
                            · rename_i acc r12 heq12
                              split at h
                              · rename_i r13 heq13
                                split at h
                                · rename_i aqc r14 heq14
                                  split at h
                                  · rename_i r15 heq15
                                    split at h
                                    · rename_i mj2 dn r16 heq16
                                      split at h
                                      · rename_i hmj2
                                        split at h
                                        · rename_i doms r17 heq17
                                          split at h
                                          · rename_i hv16
                                            simp only [Option.some.injEq,
                                              Prod.mk.injEq] at h
                                            obtain ⟨hds, hr⟩ := h
                                            subst hds; subst hr
                                            simp only [decodeDataset,
                                              decodeHead_extend ext heq0]
                                            rw [dif_pos hmn]
                                            simp only [expectText_extend ext heq1,
                                              decodeUintItem_extend ext heq2,
                                              expectText_extend ext heq3,
                                              decodeTextItem_extend ext heq4,
                                              expectText_extend ext heq5,
                                              decodeTextItem_extend ext heq6,
                                              expectText_extend ext heq7,
                                              decodeDateItem_extend ext heq8,
                                              expectText_extend ext heq9,
                                              decodeHllItem_extend ext heq10,
                                              expectText_extend ext heq11,
                                              decodeUintItem_extend ext heq12,
                                              expectText_extend ext heq13,
                                              decodeUintItem_extend ext heq14,
                                              expectText_extend ext heq15,
                                              decodeHead_extend ext heq16]
                                            rw [dif_pos hmj2]
                                            simp only [decodeDomains_extend ext heq17]
                                            rw [if_pos hv16]
                                          · exact absurd h (by simp)
                                        · exact absurd h (by simp)
                                      · exact absurd h (by simp)
                                    · exact absurd h (by simp)
                                  · exact absurd h (by simp)
                                · exact absurd h (by simp)
                              · exact absurd h (by simp)
                            · exact absurd h (by simp)
                          · exact absurd h (by simp)
                        · exact absurd h (by simp)
                      · exact absurd h (by simp)
                    · exact absurd h (by simp)
                  · exact absurd h (by simp)
                · exact absurd h (by simp)
              · exact absurd h (by simp)
            · exact absurd h (by simp)
          · exact absurd h (by simp)
        · exact absurd h (by simp)
      · exact absurd h (by simp)
    · exact absurd h (by simp)
  · exact absurd h (by simp)

theorem foldDatasets_append (fmt : Nat → String) (l1 : List MagnitudeDataset) :
    ∀ (seq : DatasetSequence) (seqNum : Nat) (l2 : List MagnitudeDataset),
      foldDatasets fmt seq seqNum (l1 ++ l2) =
        match foldDatasets fmt seq seqNum l1 with
        | .error e => .error e
        | .ok (seq', seqNum') => foldDatasets fmt seq' seqNum' l2 := by
  induction l1 with
  | nil => intro seq seqNum l2; rfl
  | cons d tl ih =>
    intro seq seqNum l2
    simp only [List.cons_append, foldDatasets]
    cases DatasetSequence.addDataset seq
        { d.finaliseStats with extraSourceFilename := fmt seqNum } with
    | error e => rfl
    | ok seq' => exact ih seq' (seqNum + 1) l2

theorem encodeDataset_ne_nil (ds : MagnitudeDataset) : encodeDataset ds ≠ [] := by
  simp [encodeDataset, cborHead]

/-- No strict prefix of a dataset encoding decodes: a successful decode
would extend to the full encoding and claim to leave bytes over, against
the roundtrip law. -/
theorem decode_strict_prefix_none (ds : MagnitudeDataset)
    (henc : EncodableDataset ds) {p q : List Nat}
    (hpq : p ++ q = encodeDataset ds) (hq : q ≠ []) : decodeDataset p = none := by
  cases hdec : decodeDataset p with
  | none => rfl
  | some vr =>
    obtain ⟨v, r⟩ := vr
    exfalso
    have hext := decodeDataset_extend q hdec
    rw [hpq] at hext
    have hrt := decodeDataset_encodeDataset ds henc []
    rw [List.append_nil] at hrt
    rw [hrt] at hext
    simp only [Option.some.injEq, Prod.mk.injEq] at hext
    exact hq (List.append_eq_nil.mp hext.2.symm).2

/-- Cutting a prefix off a concatenation of encodings followed by junk:
the prefix is a whole number of encodings followed by either a strict
prefix of the next encoding or a prefix of the junk. -/
theorem splitStream (junk : List Nat) :
    ∀ (vs : List MagnitudeDataset) (b tail : List Nat),
      b ++ tail = (vs.map encodeDataset).join ++ junk →
      ∃ vs1 vs2 s, vs = vs1 ++ vs2 ∧ b = (vs1.map encodeDataset).join ++ s ∧
        ((vs2 = [] ∧ ∃ t, s ++ t = junk) ∨
         (∃ v vs2', vs2 = v :: vs2' ∧ ∃ t, t ≠ [] ∧ s ++ t = encodeDataset v)) := by
  intro vs
  induction vs with
  | nil =>
    intro b tail hb
    exact ⟨[], [], b, rfl, by simp, Or.inl ⟨rfl, tail, by simpa using hb⟩⟩
  | cons v vs' ih =>
    intro b tail hb
    simp only [List.map_cons, List.join_cons, List.append_assoc] at hb
    rcases List.append_eq_append_iff.mp hb with ⟨a, ha1, ha2⟩ | ⟨c, hc1, hc2⟩
    · -- encodeDataset v = b ++ a : b is a prefix of the first encoding
      cases ha : a with
      | nil =>
        subst ha
        rw [List.append_nil] at ha1
        obtain ⟨vs1, vs2, s, h1, h2, h3⟩ := ih [] tail (by simpa using ha2)
        refine ⟨v :: vs1, vs2, s, by simp [h1], ?_, h3⟩
        simp only [List.map_cons, List.join_cons, List.append_assoc, ← h2]
        rw [← ha1]
        simp
      | cons x xs =>
        subst ha
        exact ⟨[], v :: vs', b, rfl, by simp,
          Or.inr ⟨v, vs', rfl, x :: xs, by simp, ha1.symm⟩⟩
    · -- b = encodeDataset v ++ c : the first encoding is complete in b
      obtain ⟨vs1, vs2, s, h1, h2, h3⟩ := ih c tail (by rw [← hc2])
      refine ⟨v :: vs1, vs2, s, by simp [h1], ?_, h3⟩
      rw [hc1, h2]
      simp [List.append_assoc]

/-- What one drain pass does to a buffer holding a run of complete
encodings followed by an undecodable remainder: it consumes exactly the
encodings, folding their finalized values into the result, and then
either returns the remainder (more input expected) or fails hard at
EOF. -/
theorem drain_run (fmt : Nat → String) (eof : Bool) (suffix : List Nat)
    (hsf : decodeDataset suffix = none) :
    ∀ (vs : List MagnitudeDataset) (seq : DatasetSequence) (seqNum : Nat),
      (∀ d ∈ vs, EncodableDataset d) →
      drainBuffer fmt eof seq seqNum ((vs.map encodeDataset).join ++ suffix) =
        match foldDatasets fmt seq seqNum (vs.map wireView) with
        | .error e => .error e
        | .ok (seq', seqNum') =>
          if suffix = [] then .ok (seq', seqNum', [])
          else if eof then .error "failed to unmarshal CBOR"
          else .ok (seq', seqNum', suffix) := by
  intro vs
  induction vs with
  | nil =>
    intro seq seqNum _
    simp only [List.map_nil, List.join_nil, List.nil_append]
    by_cases hs : suffix = []
    · subst hs
      rw [drainBuffer]
      simp [foldDatasets]
    · rw [drainBuffer, if_neg hs]
      split
      · simp only [foldDatasets, if_neg hs]
      · rename_i d remaining heqs
        rw [hsf] at heqs
        exact absurd heqs (by simp)
  | cons v vs' ih =>
    intro seq seqNum hvs
    simp only [List.map_cons, List.join_cons, List.append_assoc]
    have hne : encodeDataset v ++ ((vs'.map encodeDataset).join ++ suffix) ≠ [] := by
      intro hcontra
      exact encodeDataset_ne_nil v (List.append_eq_nil.mp hcontra).1
    rw [drainBuffer, if_neg hne]
    have hdec := decodeDataset_encodeDataset v (hvs v (by simp))
      ((vs'.map encodeDataset).join ++ suffix)
    split
    · rename_i heqn
      rw [hdec] at heqn
      exact absurd heqn (by simp)
    · rename_i d remaining heqs
      rw [hdec] at heqs
      simp only [Option.some.injEq, Prod.mk.injEq] at heqs
      obtain ⟨hd, hrem⟩ := heqs
      subst hd; subst hrem
      cases haD : DatasetSequence.addDataset seq
          { (wireView v).finaliseStats with extraSourceFilename := fmt seqNum } with
      | error e =>
        simp only [haD, List.map_cons, foldDatasets]
      | ok seq2 =>
        simp only [haD, List.map_cons, foldDatasets]
        exact ih seq2 (seqNum + 1) (fun d hd => hvs d (by simp [hd]))

/-- The outer loop invariant: however the remaining stream of encodings
(plus undecodable junk) is cut into chunks, the loop folds exactly the
decoded values into the result and fails hard on a nonempty junk tail. -/
theorem loadLoop_inv (fmt : Nat → String) :
    ∀ (chunks : List (List Nat)) (buffer : List Nat) (seq : DatasetSequence)
      (seqNum : Nat) (vs : List MagnitudeDataset) (junk : List Nat),
      (∀ d ∈ vs, EncodableDataset d) →
      (∀ p q, junk = p ++ q → decodeDataset p = none) →
      buffer ++ chunks.join = (vs.map encodeDataset).join ++ junk →
      loadLoop fmt seq seqNum buffer chunks =
        match foldDatasets fmt seq seqNum (vs.map wireView) with
        | .error e => .error e
        | .ok (seq', _) =>
          if junk = [] then .ok seq' else .error "failed to unmarshal CBOR" := by
  intro chunks
  induction chunks with
  | nil =>
    intro buffer seq seqNum vs junk hvs hjunk hb
    have hb2 : buffer = (vs.map encodeDataset).join ++ junk := by simpa using hb
    subst hb2
    rw [loadLoop, drain_run fmt true junk (hjunk junk [] (by simp)) vs seq seqNum hvs]
    cases hfd : foldDatasets fmt seq seqNum (vs.map wireView) with
    | error e => simp
    | ok pr =>
      obtain ⟨seq2, sn2⟩ := pr
      by_cases hj : junk = []
      · subst hj
        simp
      · simp [hj]
  | cons c rest ih =>
    intro buffer seq seqNum vs junk hvs hjunk hb
    have hb' : (buffer ++ c) ++ rest.join = (vs.map encodeDataset).join ++ junk := by
      rw [List.append_assoc]
      simpa using hb
    obtain ⟨vs1, vs2, s, hvseq, hbc, hcase⟩ :=
      splitStream junk vs (buffer ++ c) rest.join hb'
    have hcan : s ++ rest.join = (vs2.map encodeDataset).join ++ junk := by
      have h1 : ((vs1.map encodeDataset).join ++ s) ++ rest.join =
          (vs1.map encodeDataset).join ++ ((vs2.map encodeDataset).join ++ junk) := by
        rw [← hbc, hb', hvseq, List.map_append]
        simp [List.append_assoc]
      rw [List.append_assoc] at h1
      exact List.append_cancel_left h1
    have hvs1 : ∀ d ∈ vs1, EncodableDataset d := fun d hd =>
      hvs d (by rw [hvseq]; exact List.mem_append.mpr (Or.inl hd))
    have hvs2 : ∀ d ∈ vs2, EncodableDataset d := fun d hd =>
      hvs d (by rw [hvseq]; exact List.mem_append.mpr (Or.inr hd))
    have hsdec : decodeDataset s = none := by
      rcases hcase with ⟨-, t, hst⟩ | ⟨v, vs2', hvs2eq, t, htne, hst⟩
      · exact hjunk s t hst.symm
      · exact decode_strict_prefix_none v (hvs2 v (by rw [hvs2eq]; simp)) hst htne
    rw [loadLoop, hbc, drain_run fmt false s hsdec vs1 seq seqNum hvs1]
    rw [hvseq, List.map_append, foldDatasets_append]
    cases hfd : foldDatasets fmt seq seqNum (vs1.map wireView) with
    | error e => simp
    | ok pr =>
      obtain ⟨seq2, sn2⟩ := pr
      have hload := ih s seq2 sn2 vs2 junk hvs2 hjunk hcan
      by_cases hs0 : s = []
      · subst hs0
        simpa using hload
      · simp only [if_neg hs0]
        simpa [hs0] using hload

/-- **C7**: for any chunking of the byte stream, the sequence reader
decodes each complete dataset value off the head of its buffer consuming
exactly that value's bytes (a partial value never decodes, so the loop
waits for more input), finalizes each decoded dataset and folds it into
the running result via the Aggregator (the first item seeds the result,
later ones are merged and truncated by `addDataset`); bytes remaining
after the source is exhausted that do not decode are a hard error. -/
theorem c7_reader (fmt : Nat → String) (seq0 : DatasetSequence)
    (dss : List MagnitudeDataset) (junk : List Nat)
    (hdss : ∀ d ∈ dss, EncodableDataset d)
    (hjunk : ∀ p q, junk = p ++ q → decodeDataset p = none)
    (chunks : List (List Nat))
    (hchunks : chunks.join = (dss.map encodeDataset).join ++ junk) :
    LoadDNSMagSequenceFromReader seq0 fmt chunks =
      match foldDatasets fmt seq0 1 (dss.map wireView) with
      | .error e => .error e
      | .ok (seq', _) =>
        if junk = [] then .ok seq' else .error "failed to unmarshal CBOR" := by
  rw [LoadDNSMagSequenceFromReader]
  exact loadLoop_inv fmt chunks [] seq0 1 dss junk hdss hjunk (by simpa using hchunks)

/-- C7 witness: two copies of the concrete dataset's encoding, chunked
with a boundary inside the second value. -/
theorem c7_reader_witness :
    LoadDNSMagSequenceFromReader (NewDatasetSequence 0 (some ⟨2025, 1, 1, 0⟩) false)
        (fun _ => "input")
        [encodeDataset c2D ++ (encodeDataset c2D).take 10,
          (encodeDataset c2D).drop 10] =
      match foldDatasets (fun _ => "input")
          (NewDatasetSequence 0 (some ⟨2025, 1, 1, 0⟩) false) 1
          ([c2D, c2D].map wireView) with
      | .error e => .error e
      | .ok (seq', _) =>
        if ([] : List Nat) = [] then .ok seq'
        else .error "failed to unmarshal CBOR" :=
  c7_reader (fun _ => "input") (NewDatasetSequence 0 (some ⟨2025, 1, 1, 0⟩) false)
    [c2D, c2D] [] (by decide)
    (fun p q h => by
      have hp : p = [] := (List.append_eq_nil.mp h.symm).1
      subst hp
      rfl)
    [encodeDataset c2D ++ (encodeDataset c2D).take 10, (encodeDataset c2D).drop 10]
    (by simp [List.take_append_drop])

/-! #### C8: the magnitude formula and its range -/

/-- Distinct-key register lists have nodup key lists. -/
theorem regSorted_keys_nodup {l : List (Nat × Nat)} (h : regSorted l) :
    (l.map Prod.fst).Nodup := by
  have h1 : (l.map Prod.fst).Pairwise (fun a b => a < b) := by
    rw [List.pairwise_map]
    exact h
  exact h1.nodup

/-- **C8**: in a finalized dataset whose per-domain estimators observe a
subset of the global estimator's registers (as every dataset built by
`updateStats` does), each ranking entry's magnitude equals
`ln(domain_clients) / ln(total_clients) * 10` over the estimated counts,
and lies in `[0, 10]` — provided the global estimate is at least 2, which
keeps `ln(total_clients)` positive (the spec itself flags the
single-client dataset as a degenerate open question). -/
theorem c8_magnitude (ds : MagnitudeDataset)
    (hfin : ds.finaliseStats = ds)
    (hdsort : ∀ p ∈ ds.domains, regSorted p.2.hll.regs)
    (hsub : ∀ p ∈ ds.domains,
      ∀ k ∈ p.2.hll.regs.map Prod.fst, k ∈ ds.allClientsHll.regs.map Prod.fst)
    (hne : ∀ p ∈ ds.domains, p.2.hll.regs ≠ [])
    (hC : 2 ≤ ds.allClientsCount) :
    ∀ e ∈ ds.SortedByMagnitude,
      e.magnitude =
        Real.log (e.domainHll.clientsCount : ℝ) /
          Real.log (ds.allClientsCount : ℝ) * 10 ∧
      0 ≤ e.magnitude ∧ e.magnitude ≤ 10 := by
  intro e he
  have hent : e ∈ ds.magEntries := (sortedByMagnitude_perm ds).mem_iff.mp he
  obtain ⟨p, hp, rfl⟩ := List.mem_map.mp hent
  have hfd : ds.domains.map
      (fun q => (q.1, { q.2 with clientsCount := q.2.hll.cardinality })) =
      ds.domains := congrArg MagnitudeDataset.domains hfin
  have hfc : ds.allClientsHll.cardinality = ds.allClientsCount :=
    congrArg MagnitudeDataset.allClientsCount hfin
  have hself := list_map_eq_self hfd p hp
  have hcard : p.2.hll.cardinality = p.2.clientsCount := by
    have h2 := congrArg Prod.snd hself
    simpa using congrArg DomainData.clientsCount h2
  have hc1 : 1 ≤ p.2.clientsCount := by
    rw [← hcard, Hll.cardinality]
    have := hne p hp
    cases hr : p.2.hll.regs with
    | nil => exact absurd hr this
    | cons a l => simp [hr]
  have hcC : p.2.clientsCount ≤ ds.allClientsCount := by
    rw [← hcard, ← hfc, Hll.cardinality, Hll.cardinality]
    have hnd : (p.2.hll.regs.map Prod.fst).Nodup :=
      regSorted_keys_nodup (hdsort p hp)
    have hlen := (hnd.subperm (hsub p hp)).length_le
    simpa using hlen
  have hCr : (1 : ℝ) < (ds.allClientsCount : ℝ) := by
    exact_mod_cast (by omega : 1 < ds.allClientsCount)
  have hlogC : 0 < Real.log (ds.allClientsCount : ℝ) := Real.log_pos hCr
  have hlogc0 : 0 ≤ Real.log (p.2.clientsCount : ℝ) :=
    Real.log_nonneg (by exact_mod_cast hc1)
  have hlogle : Real.log (p.2.clientsCount : ℝ) ≤
      Real.log (ds.allClientsCount : ℝ) :=
    Real.log_le_log (by exact_mod_cast hc1) (by exact_mod_cast hcC)
  refine ⟨rfl, ?_, ?_⟩
  · show 0 ≤ magnitudeOf ds.allClientsCount p.2
    rw [magnitudeOf]
    positivity
  · show magnitudeOf ds.allClientsCount p.2 ≤ 10
    rw [magnitudeOf]
    have hdiv : Real.log (p.2.clientsCount : ℝ) /
        Real.log (ds.allClientsCount : ℝ) ≤ 1 :=
      (div_le_one hlogC).mpr hlogle
    linarith

/-- C8 witness: the two-client dataset `c8ds` and its one ranking entry. -/
theorem c8_magnitude_witness :
    c8ds.finaliseStats = c8ds ∧ 2 ≤ c8ds.allClientsCount ∧
    (c8e.magnitude =
        Real.log (c8e.domainHll.clientsCount : ℝ) /
          Real.log (c8ds.allClientsCount : ℝ) * 10 ∧
      0 ≤ c8e.magnitude ∧ c8e.magnitude ≤ 10) :=
  ⟨by decide, by decide,
   c8_magnitude c8ds (by decide) (by decide) (by decide) (by decide)
     (by decide) c8e
     (by rw [show c8ds.SortedByMagnitude = [c8e] from rfl]; simp)⟩

end DnsMag
